import Mathlib

/-!
Verification development for the chapter-detection core of `make_chapters.py`.

Shallow embedding conventions:
* Python floats (timestamps, durations, thresholds) are modelled as rationals
  (the code only adds, subtracts and compares them);
* Python dicts are modelled as insertion-ordered association lists with
  last-write-wins lookup;
* the stdlib helpers the code calls (`bisect.bisect_right`, `bisect.bisect_left`,
  `str(n)`) are modelled by their CPython algorithms;
* the candidate tuples `('chapter'|'back', t_start, t_end, n)` become typed
  values, and segment labels `"preface" / "chapter_<n>" / "back_matter"` become
  an inductive label type (`startswith("chapter_")` becomes `isChapter`).
-/

/-- A detected silence interval, as produced by `detect_silences`. -/
structure Silence where
  s : ℚ
  e : ℚ
deriving DecidableEq

/-- A chapter candidate / kept mark `(t_start, t_end, n)` from `main`. -/
structure Mark where
  ts : ℚ
  te : ℚ
  n : Nat
deriving DecidableEq, Repr

/-- Segment labels: `"preface"`, `"chapter_<n>"`, `"back_matter"`. -/
inductive SegLabel where
  | preface
  | chapter (n : Nat)
  | backMatter
deriving DecidableEq, Repr

/-- `label.startswith("chapter_")` from the source. -/
def SegLabel.isChapter : SegLabel → Bool
  | .chapter _ => true
  | _ => false

/-- A labeled time segment `(ss, ee, lab)` from `main`. -/
structure Seg where
  s : ℚ
  e : ℚ
  lab : SegLabel
deriving DecidableEq, Repr

/-- Duration of a segment. -/
def Seg.dur (g : Seg) : ℚ := g.e - g.s

/-! ## SilenceIndex: `build_silence_index`, `nearest_silence_bounds`,
`passes_silence_gate` -/

/-- CPython `bisect.bisect_right(a, x)` on `[lo, hi)`: the binary-search loop
`while lo < hi: mid = (lo+hi)//2; if x < a[mid]: hi = mid else: lo = mid+1`,
written with an explicit iteration bound (`fuel`); `hi - lo` iterations always
suffice, and the wrapper below supplies them. -/
def bisectRightGo (a : List ℚ) (x : ℚ) : Nat → Nat → Nat → Nat
  | 0, lo, _ => lo
  | fuel + 1, lo, hi =>
    if lo < hi then
      let mid := (lo + hi) / 2
      if x < a.getD mid 0 then bisectRightGo a x fuel lo mid
      else bisectRightGo a x fuel (mid + 1) hi
    else lo

/-- CPython `bisect.bisect_right(a, x)` over the whole list. -/
def bisectRight (a : List ℚ) (x : ℚ) (lo hi : Nat) : Nat :=
  bisectRightGo a x (hi - lo) lo hi

/-- CPython `bisect.bisect_left(a, x)` on `[lo, hi)`:
`while lo < hi: mid = (lo+hi)//2; if a[mid] < x: lo = mid+1 else: hi = mid`,
with the same explicit iteration bound. -/
def bisectLeftGo (a : List ℚ) (x : ℚ) : Nat → Nat → Nat → Nat
  | 0, lo, _ => lo
  | fuel + 1, lo, hi =>
    if lo < hi then
      let mid := (lo + hi) / 2
      if a.getD mid 0 < x then bisectLeftGo a x fuel (mid + 1) hi
      else bisectLeftGo a x fuel lo mid
    else lo

/-- CPython `bisect.bisect_left(a, x)` over the whole list. -/
def bisectLeft (a : List ℚ) (x : ℚ) (lo hi : Nat) : Nat :=
  bisectLeftGo a x (hi - lo) lo hi

/-- `build_silence_index`: extract the `starts` and `ends` arrays
(no sorting happens here; the caller's `silences` are sorted by start). -/
def build_silence_index (silences : List Silence) : List ℚ × List ℚ :=
  (silences.map (·.s), silences.map (·.e))

/-- `nearest_silence_bounds(t_start, t_end, silences, starts, ends)`:
`idx_end = bisect_right(ends, t_start) - 1; prev_end = ends[idx_end] if in range`;
`idx_start = bisect_left(starts, t_end); next_start = starts[idx_start] if in range`. -/
def nearest_silence_bounds (t_start t_end : ℚ) (starts ends : List ℚ) :
    Option ℚ × Option ℚ :=
  let prevEnd : Option ℚ :=
    match bisectRight ends t_start 0 ends.length with
    | 0 => none
    | i + 1 => ends[i]?
  let nextStart : Option ℚ := starts[bisectLeft starts t_end 0 starts.length]?
  (prevEnd, nextStart)

/-- `passes_silence_gate`: accept iff a silence ends within `pre_win` before
`t_start` and a silence starts within `post_win` after `t_end`. -/
def passes_silence_gate (t_start t_end : ℚ) (starts ends : List ℚ)
    (pre_win post_win : ℚ) : Bool :=
  let b := nearest_silence_bounds t_start t_end starts ends
  let preOk := match b.1 with
    | none => false
    | some pe => decide (t_start - pe ≤ pre_win)
  let postOk := match b.2 with
    | none => false
    | some ns => decide (ns - t_end ≤ post_win)
  preOk && postOk

/-- Brute-force linear scan, from the spec's words: `prev_end` is the greatest
value in `ends` that is `≤ t_start` (or none). -/
def brutePrevEnd (ends : List ℚ) (t : ℚ) : Option ℚ :=
  (ends.filter (fun e => e ≤ t)).max?

/-- Brute-force linear scan, from the spec's words: `next_start` is the smallest
value in `starts` that is `≥ t_end` (or none). -/
def bruteNextStart (starts : List ℚ) (t : ℚ) : Option ℚ :=
  (starts.filter (fun s => t ≤ s)).min?

/-! ## CandidateFilter: gating, debounce, dedup, sequential validation,
back-matter selection (step 5 of `main`) -/

/-- One pass of the gating-and-spacing loop over time-sorted chapter
candidates: skip unless (`silences` empty or gate passes) and
`ts - last_keep_t ≥ min_chapter_gap`; on keep, update `last_keep_t`. -/
def debounceGo (nSil : Nat) (starts ends : List ℚ) (preW postW gap : ℚ) :
    List Mark → ℚ → List Mark
  | [], _ => []
  | c :: rest, lastKeep =>
    if nSil > 0 && !(passes_silence_gate c.ts c.te starts ends preW postW) then
      debounceGo nSil starts ends preW postW gap rest lastKeep
    else if c.ts - lastKeep < gap then
      debounceGo nSil starts ends preW postW gap rest lastKeep
    else
      c :: debounceGo nSil starts ends preW postW gap rest c.ts

/-- Ordering of marks by `t_start` (the `key=lambda x: x[1]` sort key). -/
def markLe (a b : Mark) : Prop := a.ts ≤ b.ts

instance : DecidableRel markLe := fun a b => by unfold markLe; infer_instance

instance : IsTotal Mark markLe := ⟨fun a b => le_total a.ts b.ts⟩

instance : IsTrans Mark markLe := ⟨fun _ _ _ h h' => le_trans h h'⟩

/-- Sort a mark list by `t_start`.  Python's `sorted` is a stable sort and a
stable sort's output is uniquely determined by the key order, so it is
modelled by a stable insertion sort. -/
def sortByTs (ms : List Mark) : List Mark :=
  ms.insertionSort markLe

/-- The chapter gating/spacing pipeline ("5) Apply gating & spacing"):
sort chapter candidates by `t_start`, then debounce with
`last_keep_t = -1e12`. -/
def chapterFilter (silences : List Silence) (preW postW gap : ℚ)
    (cands : List Mark) : List Mark :=
  let idx := build_silence_index silences
  debounceGo silences.length idx.1 idx.2 preW postW gap (sortByTs cands)
    (-(10 ^ 12 : ℚ))

/-- "Keep first occurrence per chapter number": the `seen_nums` loop. -/
def dedupGo : List Mark → List Nat → List Mark
  | [], _ => []
  | m :: rest, seen =>
    if m.n ∈ seen then dedupGo rest seen
    else m :: dedupGo rest (m.n :: seen)

/-- Sequential chapter filtering: keep a mark only when its number equals the
`expected_chapter` counter, then increment. -/
def seqGo : List Mark → Nat → List Mark
  | [], _ => []
  | m :: rest, expected =>
    if m.n = expected then m :: seqGo rest (expected + 1)
    else seqGo rest expected

/-- Steps "Handle duplicate chapter numbers" + "Apply sequential chapter
filtering" of `main`, applied to the debounced chapter list. -/
def postFilter (seqMode : Bool) (chapters : List Mark) : List Mark :=
  if seqMode then seqGo (sortByTs (sortByTs chapters)) 1
  else sortByTs (dedupGo chapters [])

/-- The full chapter mark pipeline of `main` (steps 5 and dedup/sequential). -/
def finalMarks (seqMode : Bool) (silences : List Silence)
    (preW postW gap : ℚ) (cands : List Mark) : List Mark :=
  postFilter seqMode (chapterFilter silences preW postW gap cands)

/-- Ordering of back candidates `(t_start, t_end)` by `t_start`. -/
def pairLe (a b : ℚ × ℚ) : Prop := a.1 ≤ b.1

instance : DecidableRel pairLe := fun a b => by unfold pairLe; infer_instance

instance : IsTotal (ℚ × ℚ) pairLe := ⟨fun a b => le_total a.1 b.1⟩

instance : IsTrans (ℚ × ℚ) pairLe := ⟨fun _ _ _ h h' => le_trans h h'⟩

/-- Back trigger selection: first time-sorted back candidate that passes the
silence gate (note: no empty-silence bypass here, unlike the chapter loop). -/
def backSelectGo (starts ends : List ℚ) (preW postW : ℚ) :
    List (ℚ × ℚ) → Option ℚ
  | [] => none
  | (ts, te) :: rest =>
    if passes_silence_gate ts te starts ends preW postW then some ts
    else backSelectGo starts ends preW postW rest

/-- "Back trigger (take first valid one that passes silence gate)". -/
def backSelect (silences : List Silence) (preW postW : ℚ)
    (backs : List (ℚ × ℚ)) : Option ℚ :=
  let idx := build_silence_index silences
  backSelectGo idx.1 idx.2 preW postW (backs.insertionSort pairLe)

/-! ## SegmentBuilder (steps 6 and 7 of `main`) -/

/-- The chapter segments loop: `s = marks[i][0]`,
`e = marks[i+1][0] if i+1 < len(marks) else total_duration`. -/
def chapterSegs : List Mark → ℚ → List Seg
  | [], _ => []
  | [m], total => [⟨m.ts, total, .chapter m.n⟩]
  | m :: m' :: rest, total =>
    ⟨m.ts, m'.ts, .chapter m.n⟩ :: chapterSegs (m' :: rest) total

/-- Step 6 for nonempty `marks`, before back-matter handling:
optional preface `(0, first_t)` when `first_t > 0.2`, then the chapter
segments. -/
def buildBaseSegments (marks : List Mark) (total : ℚ) : List Seg :=
  match marks with
  | [] => []
  | m0 :: _ =>
    (if (1 / 5 : ℚ) < m0.ts then [⟨0, m0.ts, .preface⟩] else []) ++
      chapterSegs marks total

/-- The per-segment body of the back-matter truncation loop:
drop segments with `back_start ≤ ss`, truncate a straddling segment,
keep the rest. -/
def truncateSeg (back : ℚ) (g : Seg) : Option Seg :=
  if back ≤ g.s then none
  else if g.s < back ∧ back < g.e then some ⟨g.s, back, g.lab⟩
  else some g

/-- Back-matter handling for the nonempty-marks branch: truncate/drop, then
append `back_matter` when `total_duration - back_start ≥ 1.0`. -/
def applyBack (segs : List Seg) (back? : Option ℚ) (total : ℚ) : List Seg :=
  match back? with
  | none => segs
  | some back =>
    segs.filterMap (truncateSeg back) ++
      (if 1 ≤ total - back then [⟨back, total, .backMatter⟩] else [])

/-- Step 6 of `main`: build segments from marks, back-matter start and total
duration (including the empty-marks fallback branch). -/
def buildSegments (marks : List Mark) (back? : Option ℚ) (total : ℚ) :
    List Seg :=
  match marks with
  | [] =>
    match back? with
    | some back =>
      if 1 < back then [⟨0, back, .preface⟩, ⟨back, total, .backMatter⟩]
      else [⟨0, total, .preface⟩]
    | none => [⟨0, total, .preface⟩]
  | m0 :: rest => applyBack (buildBaseSegments (m0 :: rest) total) back? total

/-- "chapter segment shorter than threshold" test of pass 1. -/
def segShort (minDur : ℚ) (g : Seg) : Bool :=
  g.lab.isChapter && decide (g.e - g.s < minDur)

/-- Pass 1 main loop once a previous kept segment (`cur`, the live tail of
`cleaned`) exists: a short chapter segment is absorbed into `cur`
(`cleaned[-1] = (pss, ee, plab)`), anything else is emitted and becomes the
new tail. -/
def pass1Go (minDur : ℚ) (cur : Seg) : List Seg → List Seg
  | [] => [cur]
  | g :: rest =>
    if segShort minDur g then pass1Go minDur ⟨cur.s, g.e, cur.lab⟩ rest
    else cur :: pass1Go minDur g rest

/-- Pass 1 ("7) Enforce minimum chapter duration") of `main`: while `cleaned`
is empty, short chapter segments are dropped outright; the first kept segment
then seeds the absorb loop. -/
def pass1 (minDur : ℚ) : List Seg → List Seg
  | [] => []
  | g :: rest =>
    if segShort minDur g then pass1 minDur rest
    else pass1Go minDur g rest

/-- Pass 2: drop remaining chapter segments shorter than
`max(1.0, min_chapter_duration * 0.5)`. -/
def pass2 (minDur : ℚ) (segs : List Seg) : List Seg :=
  segs.filter fun g =>
    !(g.lab.isChapter && decide (g.e - g.s < max 1 (minDur * (1 / 2))))

/-- "Drop microscopic fragments": keep segments with duration `≥ 1.0`. -/
def finalClean (segs : List Seg) : List Seg :=
  segs.filter fun g => decide (1 ≤ g.e - g.s)

/-- The whole segment pipeline of `main` (steps 6 + 7 + cleanup). -/
def segmentBuilder (marks : List Mark) (back? : Option ℚ) (total minDur : ℚ) :
    List Seg :=
  finalClean (pass2 minDur (pass1 minDur (buildSegments marks back? total)))

/-- Segment contiguity relation: this segment's end is the next one's start. -/
def SegAdj (a b : Seg) : Prop := a.e = b.s

instance : DecidableRel SegAdj := fun a b => by
  unfold SegAdj; infer_instance

/-! ## PhraseGrammar: `english_cardinal`, `english_ordinal_basic`,
`russian_cardinal`, `russian_ordinal_basic`, `build_phrase_map` -/

/-- Modelled from CPython `str(n)` on a nonnegative int: its decimal digit
characters, most significant first. -/
def decChars (n : Nat) : List Char :=
  if n < 10 then [Nat.digitChar n]
  else decChars (n / 10) ++ [Nat.digitChar (n % 10)]
termination_by n
decreasing_by omega

/-- Modelled from CPython `str(n)`: the decimal digit string of `n`. -/
def decString (n : Nat) : String := ⟨decChars n⟩

/-- `units` table of `english_cardinal`. -/
def enUnits : List String :=
  ["", "one", "two", "three", "four", "five", "six", "seven", "eight", "nine"]

/-- `teens` table of `english_cardinal`. -/
def enTeens : List String :=
  ["ten", "eleven", "twelve", "thirteen", "fourteen", "fifteen", "sixteen",
   "seventeen", "eighteen", "nineteen"]

/-- `tens` table of `english_cardinal`. -/
def enTens : List String :=
  ["", "", "twenty", "thirty", "forty", "fifty", "sixty", "seventy", "eighty",
   "ninety"]

/-- Body of `english_cardinal(n)`, with an explicit recursion-depth bound:
the self-call happens only for `100 ≤ n < 1000` on `rem = n % 100 < 100`,
which recurses no further, so depth 2 always suffices (the wrapper below
supplies it; the fuel-0 value is never reached). -/
def english_cardinalGo : Nat → Nat → String
  | 0, _ => ""
  | fuel + 1, n =>
    if n = 0 then "zero"
    else if n < 10 then enUnits.getD n ""
    else if n < 20 then enTeens.getD (n - 10) ""
    else if n < 100 then
      let t := n / 10
      let u := n % 10
      if u = 0 then enTens.getD t ""
      else enTens.getD t "" ++ " " ++ enUnits.getD u ""
    else if n < 1000 then
      let h := n / 100
      let rem := n % 100
      if rem = 0 then enUnits.getD h "" ++ " hundred"
      else enUnits.getD h "" ++ " hundred " ++ english_cardinalGo fuel rem
    else decString n

/-- `english_cardinal(n)`. -/
def english_cardinal (n : Nat) : String := english_cardinalGo 2 n

/-- The `base` dict of `english_ordinal_basic`, in insertion order. -/
def enOrdTable : List (Nat × String) :=
  [(1, "first"), (2, "second"), (3, "third"), (4, "fourth"), (5, "fifth"),
   (6, "sixth"), (7, "seventh"), (8, "eighth"), (9, "ninth"), (10, "tenth"),
   (11, "eleventh"), (12, "twelfth"), (13, "thirteenth"), (14, "fourteenth"),
   (15, "fifteenth"), (16, "sixteenth"), (17, "seventeenth"),
   (18, "eighteenth"), (19, "nineteenth"), (20, "twentieth"),
   (30, "thirtieth"), (40, "fortieth"), (50, "fiftieth"), (60, "sixtieth"),
   (70, "seventieth"), (80, "eightieth"), (90, "ninetieth"),
   (100, "hundredth")]

/-- `base.get(n)` for the English ordinal table. -/
def enOrdBase (n : Nat) : Option String := enOrdTable.lookup n

/-- `english_ordinal_basic(n)`, instrumented with a fuel bound on recursion
depth: the outer `none` means the recursion did not finish within `fuel`
nested calls.  The body mirrors the Python control flow exactly: the `base`
lookup, then the `if n < 100` block (whose recursive tail lookup happens
before the combined `t in base and tail` truthiness test, falling through on
failure), then the `if n < 1000` block, then `return None`. -/
def english_ordinal_basic (fuel : Nat) (n : Nat) : Option (Option String) :=
  match fuel with
  | 0 => none
  | fuel + 1 =>
    match enOrdBase n with
    | some w => some (some w)
    | none =>
      let blk1000 : Option (Option String) :=
        if n < 1000 then
          let h := n / 100 * 100
          let rem := n % 100
          if rem = 0 ∧ (enOrdBase h).isSome then some (enOrdBase h)
          else if h ≠ 0 then
            match english_ordinal_basic fuel rem with
            | none => none
            | some tailOpt =>
              let tl := match tailOpt with
                | some w => if w = "" then english_cardinal rem else w
                | none => english_cardinal rem
              some (some (english_cardinal h ++ " " ++ tl))
          else some none
        else some none
      if n < 100 then
        let t := n / 10 * 10
        match english_ordinal_basic fuel (n % 10) with
        | none => none
        | some tailOpt =>
          match tailOpt with
          | some w =>
            if (enOrdBase t).isSome ∧ w ≠ "" then
              some (some (english_cardinal t ++ " " ++ w))
            else blk1000
          | none => blk1000
      else blk1000

/-- The English ordinal generator as used by `build_phrase_map`; fuel `n + 1`
covers every terminating input, and the inputs on which the Python function
recurses forever are mapped to `none` (their divergence is established
separately by the C3 theorems). -/
def enOrd (n : Nat) : Option String := (english_ordinal_basic (n + 1) n).getD none

/-- Python `str.strip()`: drop whitespace from both ends. -/
def pyStrip (s : String) : String :=
  ⟨((s.data.dropWhile Char.isWhitespace).reverse.dropWhile
      Char.isWhitespace).reverse⟩

/-- `units` table of `russian_cardinal`. -/
def ruUnits : List String :=
  ["", "один", "два", "три", "четыре", "пять", "шесть", "семь", "восемь",
   "девять"]

/-- `teens` table of `russian_cardinal`. -/
def ruTeens : List String :=
  ["десять", "одиннадцать", "двенадцать", "тринадцать", "четырнадцать",
   "пятнадцать", "шестнадцать", "семнадцать", "восемнадцать", "девятнадцать"]

/-- `tens` table of `russian_cardinal`. -/
def ruTens : List String :=
  ["", "десять", "двадцать", "тридцать", "сорок", "пятьдесят", "шестьдесят",
   "семьдесят", "восемьдесят", "девяносто"]

/-- `hundreds` table of `russian_cardinal`. -/
def ruHundreds : List String :=
  ["", "сто", "двести", "триста", "четыреста", "пятьсот", "шестьсот",
   "семьсот", "восемьсот", "девятьсот"]

/-- Body of `russian_cardinal(n)`, with the same explicit recursion-depth
bound as `english_cardinalGo` (depth 2 always suffices). -/
def russian_cardinalGo : Nat → Nat → String
  | 0, _ => ""
  | fuel + 1, n =>
    if n = 0 then "ноль"
    else if n < 10 then ruUnits.getD n ""
    else if n < 20 then ruTeens.getD (n - 10) ""
    else if n < 100 then
      let t := n / 10
      let u := n % 10
      if u = 0 then ruTens.getD t ""
      else pyStrip (ruTens.getD t "" ++ " " ++ ruUnits.getD u "")
    else if n < 1000 then
      let h := n / 100
      let rem := n % 100
      if rem = 0 then ruHundreds.getD h ""
      else pyStrip (ruHundreds.getD h "" ++ " " ++ russian_cardinalGo fuel rem)
    else decString n

/-- `russian_cardinal(n)`. -/
def russian_cardinal (n : Nat) : String := russian_cardinalGo 2 n

/-- The `base` dict of `russian_ordinal_basic`. -/
def ruOrdTable : List (Nat × String) :=
  [(1, "первая"), (2, "вторая"), (3, "третья"), (4, "четвертая"),
   (5, "пятая"), (6, "шестая"), (7, "седьмая"), (8, "восьмая"),
   (9, "девятая"), (10, "десятая")]

/-- `russian_ordinal_basic(n) = base.get(n)`. -/
def russian_ordinal_basic (n : Nat) : Option String := ruOrdTable.lookup n

/-- The supported grammar languages. -/
inductive Lang where
  | en
  | ru
deriving DecidableEq

/-- One iteration of `build_phrase_map`'s per-`n` loop body (the `ru` and `en`
branches of the source have this identical shape, with their respective
cardinal/ordinal generators): append `"<trigger> <spoken>"`, record
`spoken_to_int[spoken] = n`, and, when ordinals are requested and the ordinal
exists (Python truthiness: non-`None` and nonempty), also append
`"<trigger> <ordw>"` and record `spoken_to_int[ordw] = n`. -/
def phraseMapStep (card : Nat → String) (ordBasic : Nat → Option String)
    (trigger : String) (includeOrdinals : Bool) (n : Nat)
    (acc : List String × List (String × Nat)) :
    List String × List (String × Nat) :=
  let spoken := card n
  let phrases := acc.1 ++ [trigger ++ " " ++ spoken]
  let dict := acc.2 ++ [(spoken, n)]
  if includeOrdinals then
    match ordBasic n with
    | some ordw =>
      if ordw ≠ "" then (phrases ++ [trigger ++ " " ++ ordw], dict ++ [(ordw, n)])
      else (phrases, dict)
    | none => (phrases, dict)
  else (phrases, dict)

/-- The `for n in range(1, max_chapters + 1)` loop of `build_phrase_map`. -/
def phraseMapLoop (card : Nat → String) (ordBasic : Nat → Option String)
    (trigger : String) (includeOrdinals : Bool) : Nat →
    List String × List (String × Nat)
  | 0 => ([], [])
  | m + 1 =>
    phraseMapStep card ordBasic trigger includeOrdinals (m + 1)
      (phraseMapLoop card ordBasic trigger includeOrdinals m)

/-- `build_phrase_map(language, trigger, max_chapters, include_ordinals)`:
the phrase list (with the bare trigger appended) and the
`spoken_to_int` mapping. -/
def build_phrase_map (language : Lang) (trigger : String) (maxChapters : Nat)
    (includeOrdinals : Bool) : List String × List (String × Nat) :=
  let acc :=
    match language with
    | .ru => phraseMapLoop russian_cardinal russian_ordinal_basic trigger
        includeOrdinals maxChapters
    | .en => phraseMapLoop english_cardinal enOrd trigger
        includeOrdinals maxChapters
  (acc.1 ++ [trigger], acc.2)

/-- Python dict lookup over the insertion-ordered entry list: later writes to
the same key win. -/
def dictGet (d : List (String × Nat)) (k : String) : Option Nat :=
  d.foldl (fun acc kv => if kv.1 = k then some kv.2 else acc) none

/-! ## CandidateParser: `parse_phrase` -/

/-- One timed word of a recognition result; each field is `none` when the
recognizer omitted it (`w.get(..., default)` in the source).  The word's
`end` field is named `e` (`end` is reserved). -/
structure RecWord where
  start : Option ℚ
  e : Option ℚ
  conf : Option ℚ
deriving DecidableEq

/-- One recognition result: `text` is `res_obj.get("text", "")` after the
source's `.strip().lower()` normalization (`none` when the field is absent),
`words` is `res_obj.get("result", [])` (`none` when absent). -/
structure RecResult where
  text : Option String
  words : Option (List RecWord)

/-- The confidence gate: `all(w.get("conf", 1.0) >= args.conf_min for w in words)`. -/
def confGate (confMin : ℚ) (ws : List RecWord) : Bool :=
  ws.all fun w => decide (confMin ≤ w.conf.getD 1)

/-- `max((w.get("end", 0.0) for w in words), default=None)`. -/
def phraseEnd (ws : List RecWord) : Option ℚ :=
  (ws.map (fun w => w.e.getD 0)).max?

/-- `tail.isdigit()`. -/
def isDigits (s : String) : Bool := s ≠ "" && s.data.all Char.isDigit

/-- `int(tail)` on an all-digit string. -/
def natOfDigits (s : String) : Nat :=
  s.data.foldl (fun acc c => 10 * acc + (c.toNat - 48)) 0

/-- A typed candidate event, in place of the source's
`('chapter'|'back', t_start, t_end, n_or_None)` tuple (the `conf_ok`
component of `parse_phrase`'s tuple is `True` whenever the kind is
non-`None`, so the caller's `if kind and ok` test reduces to the kind). -/
inductive ParsedCand where
  | chapter (ts te : ℚ) (n : Nat)
  | back (ts te : ℚ)
deriving DecidableEq, Repr

/-- `parse_phrase(res_obj)`: `none` models every `(None, ...)` return. -/
def parse_phrase (trigger : String) (backTrigger : Option String)
    (confMin : ℚ) (spokenToInt : List (String × Nat)) (res : RecResult) :
    Option ParsedCand :=
  let text := res.text.getD ""
  let words := res.words.getD []
  if text = "" ∨ words = [] then none
  else
    let ok := confGate confMin words
    let ts? := words.head?.bind (·.start)
    let te? := phraseEnd words
    match ok, ts?, te? with
    | true, some ts, some te =>
      if backTrigger = some text then some (.back ts te)
      else if text = trigger then none
      else if (trigger ++ " ").isPrefixOf text then
        let tl := pyStrip (text.drop (trigger.length + 1))
        let n? :=
          match dictGet spokenToInt tl with
          | some n => some n
          | none => if isDigits tl then some (natOfDigits tl) else none
        match n? with
        | some n => if n ≠ 0 then some (.chapter ts te n) else none
        | none => none
      else none
    | _, _, _ => none

/-! ## Auxiliary definitions used by the theorems -/

/-- The gap-only debounce that the chapter loop reduces to when the detected
silence set is empty: the gate check is skipped and only the min-gap check
applies. -/
def gapOnlyGo (gap : ℚ) : List Mark → ℚ → List Mark
  | [], _ => []
  | c :: rest, lastKeep =>
    if c.ts - lastKeep < gap then gapOnlyGo gap rest lastKeep
    else c :: gapOnlyGo gap rest c.ts

/-- Executable contiguity check: each segment's end equals the next start. -/
def segsChainB : List Seg → Bool
  | [] => true
  | [_] => true
  | a :: b :: rest => decide (a.e = b.s) && segsChainB (b :: rest)

/-- Structural shape of a segment list, stated on its label sequence: an
optional leading `preface`, then only chapter labels, then an optional
trailing `back_matter`. -/
def GoodShape (l : List Seg) : Prop :=
  ∃ a b c : List SegLabel,
    l.map Seg.lab = a ++ b ++ c ∧ a.length ≤ 1 ∧ (∀ x ∈ a, x = .preface) ∧
      (∀ x ∈ b, x.isChapter = true) ∧ c.length ≤ 1 ∧
      (∀ x ∈ c, x = .backMatter)

/-- The word list whose space-join is `english_cardinal n` for `1 ≤ n ≤ 999`
(same explicit depth bound as `english_cardinalGo`). -/
def enCardWordsGo : Nat → Nat → List String
  | 0, _ => []
  | fuel + 1, n =>
    if n < 10 then [enUnits.getD n ""]
    else if n < 20 then [enTeens.getD (n - 10) ""]
    else if n < 100 then
      if n % 10 = 0 then [enTens.getD (n / 10) ""]
      else [enTens.getD (n / 10) "", enUnits.getD (n % 10) ""]
    else
      if n % 100 = 0 then [enUnits.getD (n / 100) "", "hundred"]
      else enUnits.getD (n / 100) "" :: "hundred" :: enCardWordsGo fuel (n % 100)

/-- The word list of `english_cardinal n` for `1 ≤ n ≤ 999`. -/
def enCardWords (n : Nat) : List String := enCardWordsGo 2 n

/-- The word list whose space-join is `russian_cardinal n` for `1 ≤ n ≤ 999`. -/
def ruCardWordsGo : Nat → Nat → List String
  | 0, _ => []
  | fuel + 1, n =>
    if n < 10 then [ruUnits.getD n ""]
    else if n < 20 then [ruTeens.getD (n - 10) ""]
    else if n < 100 then
      if n % 10 = 0 then [ruTens.getD (n / 10) ""]
      else [ruTens.getD (n / 10) "", ruUnits.getD (n % 10) ""]
    else
      if n % 100 = 0 then [ruHundreds.getD (n / 100) ""]
      else ruHundreds.getD (n / 100) "" :: ruCardWordsGo fuel (n % 100)

/-- The word list of `russian_cardinal n` for `1 ≤ n ≤ 999`. -/
def ruCardWords (n : Nat) : List String := ruCardWordsGo 2 n

/-- Join a word list with single spaces (the effect of the source's
f-string concatenations). -/
def wordsJoin : List String → String
  | [] => ""
  | [w] => w
  | w :: w' :: ws => w ++ " " ++ wordsJoin (w' :: ws)

/-- Char-list version of `wordsJoin`, for reasoning about string equality. -/
def charJoin : List (List Char) → List Char
  | [] => []
  | [w] => w
  | w :: w' :: ws => w ++ ' ' :: charJoin (w' :: ws)

/-- A well-formed numeral word: nonempty and whitespace-free. -/
def okWord (w : String) : Prop :=
  w ≠ "" ∧ ∀ c ∈ w.data, c.isWhitespace = false

instance (w : String) : Decidable (okWord w) := by
  unfold okWord
  infer_instance

/-- First index of `w` in a numeral table. -/
def tblIdx (tbl : List String) (w : String) : Option Nat := tbl.indexOf? w

/-- Decode a single English numeral word back to its value. -/
def oneWordEn (w : String) : Option Nat :=
  match tblIdx enUnits w with
  | some u => some u
  | none =>
    match tblIdx enTeens w with
    | some i => some (10 + i)
    | none =>
      match tblIdx enTens w with
      | some t => some (10 * t)
      | none => none

/-- Decode an English cardinal word list back to its value (left inverse of
`enCardWords` on `[1, 999]`). -/
def decodeEnWords : List String → Option Nat
  | [] => none
  | [w] => oneWordEn w
  | [w1, w2] =>
    if w2 = "hundred" then (tblIdx enUnits w1).map (· * 100)
    else
      match tblIdx enTens w1, tblIdx enUnits w2 with
      | some t, some u => some (10 * t + u)
      | _, _ => none
  | w1 :: w2 :: w3 :: ws =>
    if w2 = "hundred" then
      match tblIdx enUnits w1, decodeEnWords (w3 :: ws) with
      | some h, some r => some (100 * h + r)
      | _, _ => none
    else none

/-- Decode a single Russian numeral word back to its value. -/
def oneWordRu (w : String) : Option Nat :=
  match tblIdx ruUnits w with
  | some u => some u
  | none =>
    match tblIdx ruTeens w with
    | some i => some (10 + i)
    | none =>
      match tblIdx ruTens w with
      | some t => some (10 * t)
      | none => (tblIdx ruHundreds w).map (· * 100)

/-- Decode a Russian cardinal word list back to its value (left inverse of
`ruCardWords` on `[1, 999]`). -/
def decodeRuWords : List String → Option Nat
  | [] => none
  | [w] => oneWordRu w
  | w1 :: w2 :: ws =>
    match tblIdx ruHundreds w1 with
    | some h =>
      match decodeRuWords (w2 :: ws) with
      | some r => some (100 * h + r)
      | none => none
    | none =>
      match ws, tblIdx ruTens w1, tblIdx ruUnits w2 with
      | [], some t, some u => some (10 * t + u)
      | _, _, _ => none

/-- Value of a digit character. -/
def charVal (c : Char) : Nat := c.toNat - 48

/-- Value of a most-significant-first digit character list. -/
def valOfChars (l : List Char) : Nat :=
  l.foldl (fun acc c => 10 * acc + charVal c) 0

/-- Whether a string's first character is a decimal digit. -/
def headIsDigit (s : String) : Bool :=
  match s.data with
  | c :: _ => c.isDigit
  | [] => false

/-- The cardinal generator chosen by `build_phrase_map` for each language. -/
def langCardinal : Lang → Nat → String
  | .en => english_cardinal
  | .ru => russian_cardinal

/-! ## Theorems -/

theorem seqGo_map_n (ms : List Mark) (expected : Nat) :
    (seqGo ms expected).map Mark.n =
      List.range' expected (seqGo ms expected).length := by
  induction ms generalizing expected with
  | nil => simp [seqGo]
  | cons m rest ih =>
    simp only [seqGo]
    by_cases h : m.n = expected
    · simp [h, ih (expected + 1), List.range'_succ]
    · simp [h, ih expected]

/-- C5: with sequential-chapter mode on, for every input candidate list the
chapter numbers of the final marks, read in time order, form exactly the
sequence `1, 2, …, k` for some `k ≥ 0`, with no gaps and no repeats. -/
theorem C5_sequential_mode_numbers (silences : List Silence)
    (preW postW gap : ℚ) (cands : List Mark) :
    ∃ k, (finalMarks true silences preW postW gap cands).map Mark.n =
      List.range' 1 k := by
  refine ⟨(finalMarks true silences preW postW gap cands).length, ?_⟩
  unfold finalMarks postFilter
  simp only [if_true]
  exact seqGo_map_n _ 1

theorem passes_gate_empty (ts te preW postW : ℚ) :
    passes_silence_gate ts te [] [] preW postW = false := by
  simp [passes_silence_gate, nearest_silence_bounds, bisectRight, bisectRightGo]

theorem backSelectGo_empty (preW postW : ℚ) (bs : List (ℚ × ℚ)) :
    backSelectGo [] [] preW postW bs = none := by
  induction bs with
  | nil => rfl
  | cons b rest ih =>
    cases b
    simp [backSelectGo, passes_gate_empty, ih]

theorem debounceGo_empty_eq_gapOnly (preW postW gap : ℚ) (ms : List Mark)
    (lk : ℚ) :
    debounceGo 0 [] [] preW postW gap ms lk = gapOnlyGo gap ms lk := by
  induction ms generalizing lk with
  | nil => rfl
  | cons c rest ih => simp [debounceGo, gapOnlyGo, ih]

/-- C1 (amended): when the detected silence set is empty the bypass applies
only to the chapter loop — `chapterFilter` reduces to the min-gap-only
debounce — while the back-matter selector applies the gate unconditionally,
so no back-matter candidate is ever selectable (`backSelect` returns none). -/
theorem C1_empty_silences_bypass (preW postW gap : ℚ)
    (bs : List (ℚ × ℚ)) (cs : List Mark) :
    backSelect [] preW postW bs = none ∧
      chapterFilter [] preW postW gap cs =
        gapOnlyGo gap (sortByTs cs) (-(10 ^ 12 : ℚ)) := by
  constructor
  · exact backSelectGo_empty preW postW _
  · exact debounceGo_empty_eq_gapOnly preW postW gap _ _

/-- C1 counterexample: with no detected silences, a back-matter candidate at
t = 10 is not selectable, although the claim asserts that the gate is
bypassed for back-matter candidates too. -/
theorem C1_counterexample :
    backSelect [] (3 / 5) (4 / 5) [(10, 11)] = none := by decide

/-- C10: a recognition word without a confidence field is treated as having
confidence 1.0, so for any floor ≤ 1.0 the confidence gate passes exactly
when every word that does carry a confidence meets the floor — a missing
confidence alone never causes the result to be discarded. -/
theorem C10_missing_conf_passes (confMin : ℚ) (ws : List RecWord)
    (h : confMin ≤ 1) :
    confGate confMin ws = true ↔
      ∀ w ∈ ws, ∀ c, w.conf = some c → confMin ≤ c := by
  simp only [confGate, List.all_eq_true, decide_eq_true_eq]
  constructor
  · intro hh w hw c hc
    have hcs := hh w hw
    rwa [hc, Option.getD_some] at hcs
  · intro hh w hw
    cases hcase : w.conf with
    | none => simpa [hcase] using h
    | some c => simpa [hcase] using hh w hw c hcase

/-- Witness for C10 at floor 0.35 and a single word with no confidence. -/
theorem C10_witness :
    (35 / 100 : ℚ) ≤ 1 ∧
      (confGate (35 / 100) [⟨some 5, some 6, none⟩] = true ↔
        ∀ w ∈ [({ start := some 5, e := some 6, conf := none } : RecWord)],
          ∀ c, w.conf = some c → (35 / 100 : ℚ) ≤ c) :=
  ⟨by norm_num, C10_missing_conf_passes (35 / 100) _ (by norm_num)⟩

/-- C8 (amended): a recognition result with empty text, a missing or empty
word list, or a first word lacking its start time produces no candidate, and
the parser is a total function (no input aborts the run); however a word
lacking its end defaults to 0.0 and one lacking its confidence defaults to
1.0, neither of which by itself suppresses the candidate. -/
theorem C8_missing_fields_no_candidate (trigger : String)
    (backT : Option String) (confMin : ℚ) (d : List (String × Nat))
    (res : RecResult)
    (h : res.text.getD "" = "" ∨ res.words.getD [] = [] ∨
      ((res.words.getD []).head?.bind RecWord.start) = none) :
    parse_phrase trigger backT confMin d res = none := by
  unfold parse_phrase
  rcases h with h | h | h
  · simp [h]
  · simp [h]
  · by_cases ht : res.text.getD "" = ""
    · simp [ht]
    · by_cases hw : res.words.getD [] = []
      · simp [hw]
      · simp only [ht, hw, or_self, if_false, h]
        split <;> simp_all

/-- Witness for C8 (amended): a result whose first word lacks `start`. -/
theorem C8_missing_fields_witness :
    ((some "chapter one" : Option String).getD "" = "" ∨
        (some [({ start := none, e := some 6, conf := some 1 } : RecWord)] :
          Option (List RecWord)).getD [] = [] ∨
        ((some [({ start := none, e := some 6, conf := some 1 } : RecWord)] :
            Option (List RecWord)).getD []).head?.bind RecWord.start = none) ∧
      parse_phrase "chapter" none (35 / 100) []
        ⟨some "chapter one", some [⟨none, some 6, some 1⟩]⟩ = none :=
  ⟨Or.inr (Or.inr rfl),
    C8_missing_fields_no_candidate "chapter" none (35 / 100) [] _
      (Or.inr (Or.inr rfl))⟩

/-- C8 counterexample: a result whose second word lacks its confidence value
still produces a chapter candidate, contradicting the claim that a missing
confidence yields no candidate. -/
theorem C8_counterexample :
    parse_phrase "chapter" none (35 / 100) [("one", 1)]
      ⟨some "chapter one",
        some [⟨some 5, some (11 / 2), some (9 / 10)⟩, ⟨some (28 / 5), some 6, none⟩]⟩
      = some (.chapter 5 6 1) := by with_unfolding_all decide

/-- C7: evaluated at the failing input, pass 1 drops the short leading
chapter `[0, 30)` outright and the following segment still starts at 30 — the
dropped time range is lost, not picked up by the segment that follows (the
source comment "next will start from same ss" is wrong); the second conjunct
shows the absorb-into-previous half of the claim behaving as described. -/
theorem C7_dropped_range_lost :
    pass1 120 [⟨0, 30, .chapter 1⟩, ⟨30, 200, .chapter 2⟩] =
        [⟨30, 200, .chapter 2⟩] ∧
      pass1 120 [⟨0, 200, .preface⟩, ⟨200, 230, .chapter 1⟩, ⟨230, 400, .chapter 2⟩] =
        [⟨0, 230, .preface⟩, ⟨230, 400, .chapter 2⟩] := by
  constructor <;> with_unfolding_all decide

theorem english_ordinal_basic_zero_diverges (fuel : Nat) :
    english_ordinal_basic fuel 0 = none := by
  induction fuel with
  | zero => rfl
  | succ f ih =>
    have h0 : enOrdBase 0 = none := rfl
    simp [english_ordinal_basic, h0, ih]

/-- C3: the ordinal generator is not terminating on all of `[1, max_number]`:
for `n = 200` (reachable whenever ordinals are requested and
`max_number ≥ 200`) the recursion `english_ordinal_basic(0)` calls itself
forever — no fuel bound suffices — instead of falling back to none. -/
theorem C3_ordinal_diverges_at_200 (fuel : Nat) :
    english_ordinal_basic fuel 200 = none := by
  cases fuel with
  | zero => rfl
  | succ f =>
    have h0 : enOrdBase 200 = none := rfl
    simp [english_ordinal_basic, h0, english_ordinal_basic_zero_diverges f]

theorem debounceGo_sublist (nSil : Nat) (starts ends : List ℚ)
    (preW postW gap : ℚ) (ms : List Mark) (lk : ℚ) :
    List.Sublist (debounceGo nSil starts ends preW postW gap ms lk) ms := by
  induction ms generalizing lk with
  | nil => simp [debounceGo]
  | cons c rest ih =>
    simp only [debounceGo]
    split
    · exact (ih lk).cons c
    · split
      · exact (ih lk).cons c
      · exact (ih c.ts).cons₂ c

theorem debounceGo_head_ge (nSil : Nat) (starts ends : List ℚ)
    (preW postW gap : ℚ) (ms : List Mark) (lk : ℚ) (y : Mark)
    (hy : (debounceGo nSil starts ends preW postW gap ms lk).head? = some y) :
    gap ≤ y.ts - lk := by
  induction ms generalizing lk with
  | nil => simp [debounceGo] at hy
  | cons c rest ih =>
    simp only [debounceGo] at hy
    split at hy
    · exact ih lk hy
    · split at hy
      · exact ih lk hy
      · rename_i hgap
        simp only [List.head?_cons, Option.some.injEq] at hy
        subst hy
        linarith [not_lt.mp hgap]

theorem debounceGo_chain (nSil : Nat) (starts ends : List ℚ)
    (preW postW gap : ℚ) (ms : List Mark) (lk : ℚ) :
    List.Chain' (fun a b => gap ≤ b.ts - a.ts)
      (debounceGo nSil starts ends preW postW gap ms lk) := by
  induction ms generalizing lk with
  | nil => simp [debounceGo]
  | cons c rest ih =>
    simp only [debounceGo]
    split
    · exact ih lk
    · split
      · exact ih lk
      · refine List.chain'_cons'.mpr ⟨?_, ih c.ts⟩
        intro y hy
        exact debounceGo_head_ge nSil starts ends preW postW gap rest c.ts y hy

theorem debounceGo_mem_gate (nSil : Nat) (starts ends : List ℚ)
    (preW postW gap : ℚ) (ms : List Mark) (lk : ℚ) (m : Mark)
    (hm : m ∈ debounceGo nSil starts ends preW postW gap ms lk) :
    nSil = 0 ∨ passes_silence_gate m.ts m.te starts ends preW postW = true := by
  induction ms generalizing lk with
  | nil => simp [debounceGo] at hm
  | cons c rest ih =>
    simp only [debounceGo] at hm
    split at hm
    · exact ih lk hm
    · rename_i hcond
      split at hm
      · exact ih lk hm
      · rcases List.mem_cons.mp hm with rfl | hm'
        · rcases Nat.eq_zero_or_pos nSil with h0 | hpos
          · exact Or.inl h0
          · right
            by_contra hg
            exact hcond (by simp [hpos, Bool.eq_false_iff.mpr hg])
        · exact ih c.ts hm'

theorem pairwise_gap_of_chain (gap : ℚ) (l : List Mark)
    (hls : l.Pairwise markLe)
    (hc : List.Chain' (fun a b => gap ≤ b.ts - a.ts) l) :
    l.Pairwise (fun a b => gap ≤ b.ts - a.ts) := by
  induction l with
  | nil => simp
  | cons a l ih =>
    rw [List.pairwise_cons]
    rcases List.chain'_cons'.mp hc with ⟨hhead, htail⟩
    refine ⟨?_, ih (List.Pairwise.of_cons hls) htail⟩
    intro b hb
    cases l with
    | nil => simp at hb
    | cons x l' =>
      have hx : gap ≤ x.ts - a.ts := hhead x rfl
      rcases List.mem_cons.mp hb with rfl | hb'
      · exact hx
      · have hxb : markLe x b :=
          (List.pairwise_cons.mp (List.Pairwise.of_cons hls)).1 b hb'
        unfold markLe at hxb
        linarith

theorem dedupGo_sublist (ms : List Mark) (seen : List Nat) :
    List.Sublist (dedupGo ms seen) ms := by
  induction ms generalizing seen with
  | nil => simp [dedupGo]
  | cons m rest ih =>
    simp only [dedupGo]
    split
    · exact (ih seen).cons m
    · exact (ih (m.n :: seen)).cons₂ m

theorem seqGo_sublist (ms : List Mark) (expected : Nat) :
    List.Sublist (seqGo ms expected) ms := by
  induction ms generalizing expected with
  | nil => simp [seqGo]
  | cons m rest ih =>
    simp only [seqGo]
    split
    · exact (ih (expected + 1)).cons₂ m
    · exact (ih expected).cons m

theorem sortByTs_sorted (ms : List Mark) : (sortByTs ms).Pairwise markLe :=
  List.sorted_insertionSort markLe ms

theorem sortByTs_of_sorted (ms : List Mark) (h : ms.Pairwise markLe) :
    sortByTs ms = ms :=
  List.Sorted.insertionSort_eq h

theorem chapterFilter_pairwise_gap (silences : List Silence)
    (preW postW gap : ℚ) (cands : List Mark) :
    (chapterFilter silences preW postW gap cands).Pairwise
      (fun a b => gap ≤ b.ts - a.ts) := by
  apply pairwise_gap_of_chain
  · exact List.Pairwise.sublist
      (debounceGo_sublist _ _ _ _ _ _ _ _) (sortByTs_sorted cands)
  · exact debounceGo_chain _ _ _ _ _ _ _ _

theorem chapterFilter_sorted (silences : List Silence)
    (preW postW gap : ℚ) (cands : List Mark) :
    (chapterFilter silences preW postW gap cands).Pairwise markLe :=
  List.Pairwise.sublist (debounceGo_sublist _ _ _ _ _ _ _ _)
    (sortByTs_sorted cands)

/-- C4: in the final mark list (after debouncing, deduplication and optional
sequential validation) any two kept marks in time order have `t_start`
difference at least `min_chapter_gap`, and every kept mark passed the silence
gate or the empty-silence bypass. -/
theorem C4_min_gap_and_gate (seqMode : Bool) (silences : List Silence)
    (preW postW gap : ℚ) (cands : List Mark) :
    (finalMarks seqMode silences preW postW gap cands).Pairwise
        (fun a b => gap ≤ b.ts - a.ts) ∧
      ∀ m ∈ finalMarks seqMode silences preW postW gap cands,
        silences = [] ∨
          passes_silence_gate m.ts m.te (silences.map Silence.s)
            (silences.map Silence.e) preW postW = true := by
  have hsub : List.Sublist (finalMarks seqMode silences preW postW gap cands)
      (chapterFilter silences preW postW gap cands) := by
    unfold finalMarks postFilter
    cases seqMode with
    | true =>
      simp only [if_true]
      rw [sortByTs_of_sorted _ (chapterFilter_sorted silences preW postW gap cands),
        sortByTs_of_sorted _ (chapterFilter_sorted silences preW postW gap cands)]
      exact seqGo_sublist _ 1
    | false =>
      simp only [Bool.false_eq_true, if_false]
      rw [sortByTs_of_sorted _ (List.Pairwise.sublist (dedupGo_sublist _ _)
        (chapterFilter_sorted silences preW postW gap cands))]
      exact dedupGo_sublist _ []
  constructor
  · exact List.Pairwise.sublist hsub
      (chapterFilter_pairwise_gap silences preW postW gap cands)
  · intro m hm
    have hm' := hsub.subset hm
    unfold chapterFilter build_silence_index at hm'
    have := debounceGo_mem_gate silences.length (silences.map Silence.s)
      (silences.map Silence.e) preW postW gap (sortByTs cands)
      (-(10 ^ 12 : ℚ)) m hm'
    rcases this with h0 | hg
    · exact Or.inl (List.length_eq_zero.mp h0)
    · exact Or.inr hg

instance : Std.Antisymm ((· : ℚ) ≤ ·) := ⟨fun h h' => le_antisymm h h'⟩

theorem pairwise_getD_mono (a : List ℚ) (hsort : a.Pairwise (· ≤ ·))
    (i j : Nat) (hij : i ≤ j) (hj : j < a.length) :
    a.getD i 0 ≤ a.getD j 0 := by
  rcases Nat.eq_or_lt_of_le hij with rfl | hlt
  · exact le_refl _
  · have hi : i < a.length := lt_trans hlt hj
    rw [List.getD_eq_getElem a 0 hi, List.getD_eq_getElem a 0 hj]
    exact List.pairwise_iff_getElem.mp hsort i j hi hj hlt

theorem bisectRightGo_invariant (a : List ℚ) (x : ℚ)
    (hsort : a.Pairwise (· ≤ ·)) :
    ∀ fuel lo hi, hi - lo ≤ fuel → lo ≤ hi → hi ≤ a.length →
      (∀ i, i < lo → a.getD i 0 ≤ x) →
      (∀ i, hi ≤ i → i < a.length → x < a.getD i 0) →
      lo ≤ bisectRightGo a x fuel lo hi ∧ bisectRightGo a x fuel lo hi ≤ hi ∧
        (∀ i, i < bisectRightGo a x fuel lo hi → a.getD i 0 ≤ x) ∧
        (∀ i, bisectRightGo a x fuel lo hi ≤ i → i < a.length →
          x < a.getD i 0) := by
  intro fuel
  induction fuel with
  | zero =>
    intro lo hi hfuel hlh hhl hlow hhigh
    have : lo = hi := by omega
    subst this
    exact ⟨le_refl _, le_refl _, hlow, fun i hi' => hhigh i hi'⟩
  | succ f ih =>
    intro lo hi hfuel hlh hhl hlow hhigh
    simp only [bisectRightGo]
    by_cases hlt : lo < hi
    · simp only [hlt, if_true]
      by_cases hcmp : x < a.getD ((lo + hi) / 2) 0
      · simp only [hcmp, if_true]
        refine (ih lo ((lo + hi) / 2) (by omega) (by omega) (by omega) hlow ?_).imp
          id (fun h => ⟨le_trans h.1 (by omega), h.2⟩)
        intro i hi1 hi2
        calc x < a.getD ((lo + hi) / 2) 0 := hcmp
          _ ≤ a.getD i 0 := pairwise_getD_mono a hsort _ i hi1 hi2
      · simp only [hcmp, if_false]
        have hmidle : a.getD ((lo + hi) / 2) 0 ≤ x := not_lt.mp hcmp
        refine (ih ((lo + hi) / 2 + 1) hi (by omega) (by omega) hhl ?_ hhigh).imp
          (fun h => by omega) id
        intro i hi1
        calc a.getD i 0 ≤ a.getD ((lo + hi) / 2) 0 :=
              pairwise_getD_mono a hsort i _ (by omega) (by omega)
          _ ≤ x := hmidle
    · simp only [hlt, if_false]
      have : lo = hi := by omega
      subst this
      exact ⟨le_refl _, le_refl _, hlow, fun i hi' => hhigh i hi'⟩

theorem bisectLeftGo_invariant (a : List ℚ) (x : ℚ)
    (hsort : a.Pairwise (· ≤ ·)) :
    ∀ fuel lo hi, hi - lo ≤ fuel → lo ≤ hi → hi ≤ a.length →
      (∀ i, i < lo → a.getD i 0 < x) →
      (∀ i, hi ≤ i → i < a.length → x ≤ a.getD i 0) →
      lo ≤ bisectLeftGo a x fuel lo hi ∧ bisectLeftGo a x fuel lo hi ≤ hi ∧
        (∀ i, i < bisectLeftGo a x fuel lo hi → a.getD i 0 < x) ∧
        (∀ i, bisectLeftGo a x fuel lo hi ≤ i → i < a.length →
          x ≤ a.getD i 0) := by
  intro fuel
  induction fuel with
  | zero =>
    intro lo hi hfuel hlh hhl hlow hhigh
    have : lo = hi := by omega
    subst this
    exact ⟨le_refl _, le_refl _, hlow, fun i hi' => hhigh i hi'⟩
  | succ f ih =>
    intro lo hi hfuel hlh hhl hlow hhigh
    simp only [bisectLeftGo]
    by_cases hlt : lo < hi
    · simp only [hlt, if_true]
      by_cases hcmp : a.getD ((lo + hi) / 2) 0 < x
      · simp only [hcmp, if_true]
        refine (ih ((lo + hi) / 2 + 1) hi (by omega) (by omega) hhl ?_ hhigh).imp
          (fun h => by omega) id
        intro i hi1
        calc a.getD i 0 ≤ a.getD ((lo + hi) / 2) 0 :=
              pairwise_getD_mono a hsort i _ (by omega) (by omega)
          _ < x := hcmp
      · simp only [hcmp, if_false]
        have hmidge : x ≤ a.getD ((lo + hi) / 2) 0 := not_lt.mp hcmp
        refine (ih lo ((lo + hi) / 2) (by omega) (by omega) (by omega) hlow ?_).imp
          id (fun h => ⟨le_trans h.1 (by omega), h.2⟩)
        intro i hi1 hi2
        calc x ≤ a.getD ((lo + hi) / 2) 0 := hmidge
          _ ≤ a.getD i 0 := pairwise_getD_mono a hsort _ i hi1 hi2
    · simp only [hlt, if_false]
      have : lo = hi := by omega
      subst this
      exact ⟨le_refl _, le_refl _, hlow, fun i hi' => hhigh i hi'⟩

theorem nearest_bounds_eq_brute (starts ends : List ℚ) (tS tE : ℚ)
    (hS : starts.Pairwise (· ≤ ·)) (hE : ends.Pairwise (· ≤ ·)) :
    nearest_silence_bounds tS tE starts ends =
      (brutePrevEnd ends tS, bruteNextStart starts tE) := by
  unfold nearest_silence_bounds brutePrevEnd bruteNextStart
  obtain ⟨hr0, hrhi, hrlow, hrhigh⟩ :=
    bisectRightGo_invariant ends tS hE (ends.length - 0) 0 ends.length
      (le_refl _) (Nat.zero_le _) (le_refl _) (by omega)
      (fun i hi1 hi2 => absurd hi1 (by omega))
  obtain ⟨hl0, hlhi, hllow, hlhigh⟩ :=
    bisectLeftGo_invariant starts tE hS (starts.length - 0) 0 starts.length
      (le_refl _) (Nat.zero_le _) (le_refl _) (by omega)
      (fun i hi1 hi2 => absurd hi1 (by omega))
  have hprev : (match bisectRight ends tS 0 ends.length with
      | 0 => none
      | i + 1 => ends[i]?) = (ends.filter (fun e => e ≤ tS)).max? := by
    unfold bisectRight
    rcases hcase : bisectRightGo ends tS (ends.length - 0) 0 ends.length with _ | i
    · rw [List.filter_eq_nil_iff.mpr ?_]
      · rfl
      · intro y hy
        obtain ⟨j, hj, rfl⟩ := List.mem_iff_getElem.mp hy
        rw [← List.getD_eq_getElem ends 0 hj]
        simp only [decide_eq_true_eq]
        exact not_le.mpr (hrhigh j (by omega) hj)
    · have hilt : i < ends.length := by omega
      show ends[i]? = _
      rw [List.getElem?_eq_getElem hilt]
      symm
      rw [List.max?_eq_some_iff (fun a : ℚ => le_refl a) max_choice
        (fun a b c => max_le_iff)]
      constructor
      · rw [List.mem_filter]
        refine ⟨List.getElem_mem hilt, ?_⟩
        simp only [decide_eq_true_eq]
        rw [← List.getD_eq_getElem ends 0 hilt]
        exact hrlow i (by omega)
      · intro b hb
        rw [List.mem_filter] at hb
        obtain ⟨hbmem, hble⟩ := hb
        simp only [decide_eq_true_eq] at hble
        obtain ⟨j, hj, rfl⟩ := List.mem_iff_getElem.mp hbmem
        rw [← List.getD_eq_getElem ends 0 hj, ← List.getD_eq_getElem ends 0 hilt]
        by_cases hji : j ≤ i
        · exact pairwise_getD_mono ends hE j i hji hilt
        · exfalso
          have := hrhigh j (by omega) hj
          rw [← List.getD_eq_getElem ends 0 hj] at hble
          linarith
  have hnext : starts[bisectLeft starts tE 0 starts.length]? =
      (starts.filter (fun s => tE ≤ s)).min? := by
    unfold bisectLeft
    by_cases hcase : bisectLeftGo starts tE (starts.length - 0) 0 starts.length
        < starts.length
    · rw [List.getElem?_eq_getElem hcase]
      symm
      rw [List.min?_eq_some_iff (fun a : ℚ => le_refl a) min_choice
        (fun a b c => le_min_iff)]
      constructor
      · rw [List.mem_filter]
        refine ⟨List.getElem_mem hcase, ?_⟩
        simp only [decide_eq_true_eq]
        rw [← List.getD_eq_getElem starts 0 hcase]
        exact hlhigh _ (le_refl _) hcase
      · intro b hb
        rw [List.mem_filter] at hb
        obtain ⟨hbmem, hble⟩ := hb
        simp only [decide_eq_true_eq] at hble
        obtain ⟨j, hj, rfl⟩ := List.mem_iff_getElem.mp hbmem
        rw [← List.getD_eq_getElem starts 0 hj,
          ← List.getD_eq_getElem starts 0 hcase]
        by_cases hji : bisectLeftGo starts tE (starts.length - 0) 0
            starts.length ≤ j
        · exact pairwise_getD_mono starts hS _ j hji hj
        · exfalso
          have := hllow j (by omega)
          rw [← List.getD_eq_getElem starts 0 hj] at hble
          linarith
    · have hlen : bisectLeftGo starts tE (starts.length - 0) 0 starts.length
          = starts.length := by omega
      rw [List.getElem?_eq_none (by omega)]
      symm
      rw [Option.eq_none_iff_forall_not_mem]
      intro b hb
      have := List.min?_mem min_choice hb
      rw [List.mem_filter] at this
      obtain ⟨hbmem, hble⟩ := this
      simp only [decide_eq_true_eq] at hble
      obtain ⟨j, hj, rfl⟩ := List.mem_iff_getElem.mp hbmem
      have := hllow j (by omega)
      rw [← List.getD_eq_getElem starts 0 hj] at hble
      linarith
  rw [hprev, hnext]

/-- C6 (amended): whenever the `starts` and `ends` arrays built by
`build_silence_index` are in fact sorted (for example, for chronologically
ordered non-overlapping silences), `nearest_silence_bounds` agrees with the
brute-force linear scan: `prev_end` is the greatest end ≤ `t_start` and
`next_start` the smallest start ≥ `t_end`. -/
theorem C6_nearest_bounds_eq_brute_sorted (silences : List Silence)
    (tS tE : ℚ)
    (hS : ((build_silence_index silences).1).Pairwise (· ≤ ·))
    (hE : ((build_silence_index silences).2).Pairwise (· ≤ ·)) :
    nearest_silence_bounds tS tE (build_silence_index silences).1
        (build_silence_index silences).2 =
      (brutePrevEnd (build_silence_index silences).2 tS,
        bruteNextStart (build_silence_index silences).1 tE) :=
  nearest_bounds_eq_brute _ _ tS tE hS hE

/-- Witness for C6 (amended) on two disjoint silences and a query between
them. -/
theorem C6_witness :
    ((build_silence_index [⟨1, 2⟩, ⟨5, 6⟩]).1).Pairwise (· ≤ ·) ∧
      ((build_silence_index [⟨1, 2⟩, ⟨5, 6⟩]).2).Pairwise (· ≤ ·) ∧
      nearest_silence_bounds 4 4 (build_silence_index [⟨1, 2⟩, ⟨5, 6⟩]).1
          (build_silence_index [⟨1, 2⟩, ⟨5, 6⟩]).2 =
        (brutePrevEnd (build_silence_index [⟨1, 2⟩, ⟨5, 6⟩]).2 4,
          bruteNextStart (build_silence_index [⟨1, 2⟩, ⟨5, 6⟩]).1 4) :=
  ⟨by decide, by decide,
    C6_nearest_bounds_eq_brute_sorted [⟨1, 2⟩, ⟨5, 6⟩] 4 4 (by decide)
      (by decide)⟩

/-- C6 counterexample: for overlapping silences `[(0,100),(1,2)]` (sorted by
start, as `detect_silences` produces) the `ends` array `[100, 2]` is not
sorted, and `nearest_silence_bounds` disagrees with the brute-force scan at
`t = 150` (it returns `prev_end = 2`; the greatest end ≤ 150 is 100). -/
theorem C6_counterexample :
    nearest_silence_bounds 150 150 (build_silence_index [⟨0, 100⟩, ⟨1, 2⟩]).1
        (build_silence_index [⟨0, 100⟩, ⟨1, 2⟩]).2 ≠
      (brutePrevEnd (build_silence_index [⟨0, 100⟩, ⟨1, 2⟩]).2 150,
        bruteNextStart (build_silence_index [⟨0, 100⟩, ⟨1, 2⟩]).1 150) := by
  decide

theorem chapterSegs_head (m : Mark) (rest : List Mark) (total : ℚ) :
    (chapterSegs (m :: rest) total).head?.map Seg.s = some m.ts := by
  cases rest <;> simp [chapterSegs]

theorem chapterSegs_ne_nil (m : Mark) (rest : List Mark) (total : ℚ) :
    chapterSegs (m :: rest) total ≠ [] := by
  cases rest <;> simp [chapterSegs]

theorem chapterSegs_chain (marks : List Mark) (total : ℚ) :
    List.Chain' SegAdj (chapterSegs marks total) := by
  induction marks with
  | nil => simp [chapterSegs]
  | cons m rest ih =>
    cases rest with
    | nil => simp [chapterSegs]
    | cons m' rest' =>
      rw [chapterSegs]
      refine List.chain'_cons'.mpr ⟨?_, ih⟩
      intro y hy
      have hh := chapterSegs_head m' rest' total
      rw [hy] at hh
      simp only [Option.map_some', Option.some.injEq] at hh
      exact hh.symm

theorem chapterSegs_pos (marks : List Mark) (total : ℚ)
    (hsort : marks.Pairwise (fun a b => a.ts < b.ts))
    (htot : ∀ m ∈ marks, m.ts < total) :
    ∀ g ∈ chapterSegs marks total, g.s < g.e := by
  induction marks with
  | nil => simp [chapterSegs]
  | cons m rest ih =>
    cases rest with
    | nil =>
      simp only [chapterSegs, List.mem_singleton]
      rintro g rfl
      exact htot m (List.mem_singleton_self m)
    | cons m' rest' =>
      rw [chapterSegs]
      intro g hg
      rcases List.mem_cons.mp hg with rfl | hg'
      · exact (List.pairwise_cons.mp hsort).1 m' (List.mem_cons_self m' rest')
      · exact ih (List.Pairwise.of_cons hsort)
          (fun x hx => htot x (List.mem_cons_of_mem m hx)) g hg'

theorem chapterSegs_labels (marks : List Mark) (total : ℚ) :
    ∀ g ∈ chapterSegs marks total, g.lab.isChapter = true := by
  induction marks with
  | nil => simp [chapterSegs]
  | cons m rest ih =>
    cases rest with
    | nil =>
      simp only [chapterSegs, List.mem_singleton]
      rintro g rfl
      rfl
    | cons m' rest' =>
      rw [chapterSegs]
      intro g hg
      rcases List.mem_cons.mp hg with rfl | hg'
      · rfl
      · exact ih g hg'

theorem chapterSegs_last (marks : List Mark) (total : ℚ)
    (h : marks ≠ []) :
    (chapterSegs marks total).getLast?.map Seg.e = some total := by
  induction marks with
  | nil => exact absurd rfl h
  | cons m rest ih =>
    cases rest with
    | nil => simp [chapterSegs]
    | cons m' rest' =>
      rw [chapterSegs]
      obtain ⟨x, xs, hx⟩ :=
        List.exists_cons_of_ne_nil (chapterSegs_ne_nil m' rest' total)
      rw [hx, List.getLast?_cons_cons, ← hx]
      exact ih (by simp)

theorem buildBase_chain (marks : List Mark) (total : ℚ) :
    List.Chain' SegAdj (buildBaseSegments marks total) := by
  cases marks with
  | nil => simp [buildBaseSegments]
  | cons m0 rest =>
    rw [buildBaseSegments]
    by_cases hp : (1 / 5 : ℚ) < m0.ts
    · simp only [hp, if_true, List.singleton_append]
      refine List.chain'_cons'.mpr ⟨?_, chapterSegs_chain _ total⟩
      intro y hy
      have hh := chapterSegs_head m0 rest total
      rw [hy] at hh
      simp only [Option.map_some', Option.some.injEq] at hh
      exact hh.symm
    · simp only [hp, if_false, List.nil_append]
      exact chapterSegs_chain _ total

theorem buildBase_pos (marks : List Mark) (total : ℚ)
    (hsort : marks.Pairwise (fun a b => a.ts < b.ts))
    (htot : ∀ m ∈ marks, m.ts < total) :
    ∀ g ∈ buildBaseSegments marks total, g.s < g.e := by
  cases marks with
  | nil => simp [buildBaseSegments]
  | cons m0 rest =>
    rw [buildBaseSegments]
    intro g hg
    rcases List.mem_append.mp hg with hg' | hg'
    · split at hg'
      · rename_i hp
        simp only [List.mem_singleton] at hg'
        subst hg'
        show (0 : ℚ) < m0.ts
        linarith
      · simp at hg'
    · exact chapterSegs_pos _ total hsort htot g hg'

theorem buildBase_shape (marks : List Mark) (total : ℚ) :
    ∃ a b, (buildBaseSegments marks total).map Seg.lab = a ++ b ∧
      a.length ≤ 1 ∧ (∀ x ∈ a, x = SegLabel.preface) ∧
      (∀ x ∈ b, x.isChapter = true) := by
  cases marks with
  | nil => exact ⟨[], [], by simp [buildBaseSegments], by simp, by simp, by simp⟩
  | cons m0 rest =>
    have hch : ∀ x ∈ (chapterSegs (m0 :: rest) total).map Seg.lab,
        x.isChapter = true := by
      intro x hx
      obtain ⟨g, hg, rfl⟩ := List.mem_map.mp hx
      exact chapterSegs_labels _ total g hg
    by_cases hp : (1 / 5 : ℚ) < m0.ts
    · exact ⟨[SegLabel.preface], (chapterSegs (m0 :: rest) total).map Seg.lab,
        by rw [buildBaseSegments, if_pos hp]; simp, by simp, by simp, hch⟩
    · exact ⟨[], (chapterSegs (m0 :: rest) total).map Seg.lab,
        by rw [buildBaseSegments, if_neg hp]; simp, by simp, by simp, hch⟩

theorem buildBase_last (marks : List Mark) (total : ℚ) (h : marks ≠ []) :
    (buildBaseSegments marks total).getLast?.map Seg.e = some total := by
  cases marks with
  | nil => exact absurd rfl h
  | cons m0 rest =>
    rw [buildBaseSegments, List.getLast?_append]
    obtain ⟨g, hg, hge⟩ := Option.map_eq_some'.mp
      (chapterSegs_last (m0 :: rest) total (by simp))
    rw [hg, Option.or_some, Option.map_some', hge]

theorem chain_pos_rest_ge (g : Seg) (rest : List Seg)
    (hch : List.Chain' SegAdj (g :: rest))
    (hpos : ∀ g' ∈ g :: rest, g'.s < g'.e) :
    ∀ g' ∈ rest, g.e ≤ g'.s := by
  induction rest generalizing g with
  | nil => simp
  | cons x rest' ih =>
    intro g' hg'
    have hadj : g.e = x.s := (List.chain'_cons.mp hch).1
    rcases List.mem_cons.mp hg' with rfl | hg''
    · exact le_of_eq hadj
    · have hx := ih x (List.chain'_cons.mp hch).2
        (fun z hz => hpos z (List.mem_cons_of_mem g hz)) g' hg''
      have hxe : x.s < x.e := hpos x (by simp)
      linarith

theorem truncateSeg_none_iff (back : ℚ) (g : Seg) :
    truncateSeg back g = none ↔ back ≤ g.s := by
  unfold truncateSeg
  split
  · simp_all
  · split <;> simp_all

theorem truncate_bundle (back : ℚ) :
    ∀ l : List Seg, List.Chain' SegAdj l → (∀ g ∈ l, g.s < g.e) →
      List.Chain' SegAdj (l.filterMap (truncateSeg back)) ∧
        (∀ g ∈ l.filterMap (truncateSeg back), g.s < g.e) ∧
        (l.filterMap (truncateSeg back) = [] ∨
          (l.filterMap (truncateSeg back)).head?.map Seg.s =
            l.head?.map Seg.s) ∧
        (l.filterMap (truncateSeg back) = [] ∨
          ((l.filterMap (truncateSeg back)).getLast?.map Seg.e = some back ∨
            ((l.filterMap (truncateSeg back)).getLast?.map Seg.e =
                l.getLast?.map Seg.e ∧ ∀ g ∈ l, g.e ≤ back))) := by
  intro l
  induction l with
  | nil => simp
  | cons g rest ih =>
    intro hch hpos
    have hchr : List.Chain' SegAdj rest := (List.chain'_cons'.mp hch).2
    have hge : ∀ g' ∈ rest, g.e ≤ g'.s := chain_pos_rest_ge g rest hch hpos
    have hgpos : g.s < g.e := hpos g (by simp)
    by_cases hdrop : back ≤ g.s
    · have hnone : ∀ g' ∈ g :: rest, truncateSeg back g' = none := by
        intro g' hg'
        rcases List.mem_cons.mp hg' with rfl | hg''
        · exact (truncateSeg_none_iff back g').mpr hdrop
        · exact (truncateSeg_none_iff back g').mpr
            (le_trans hdrop (le_trans (le_of_lt hgpos) (hge g' hg'')))
      have hnil : (g :: rest).filterMap (truncateSeg back) = [] :=
        List.filterMap_eq_nil_iff.mpr hnone
      rw [hnil]
      exact ⟨List.chain'_nil, by simp, Or.inl rfl, Or.inl rfl⟩
    · have hsb : g.s < back := lt_of_not_le hdrop
      by_cases hstrad : back < g.e
      · have hsome : truncateSeg back g = some ⟨g.s, back, g.lab⟩ := by
          unfold truncateSeg
          rw [if_neg hdrop, if_pos ⟨hsb, hstrad⟩]
        have hnone : ∀ g' ∈ rest, truncateSeg back g' = none := by
          intro g' hg'
          exact (truncateSeg_none_iff back g').mpr
            (le_trans (le_of_lt hstrad) (hge g' hg'))
        rw [List.filterMap_cons, hsome, List.filterMap_eq_nil_iff.mpr hnone]
        refine ⟨by simp [List.chain'_singleton], ?_, Or.inr (by simp), Or.inr (Or.inl (by simp))⟩
        intro g' hg'
        simp only [List.mem_singleton] at hg'
        subst hg'
        exact hsb
      · have heb : g.e ≤ back := not_lt.mp hstrad
        have hsome : truncateSeg back g = some g := by
          unfold truncateSeg
          rw [if_neg hdrop, if_neg (by intro h; exact hstrad h.2)]
        rw [List.filterMap_cons, hsome]
        obtain ⟨ihA, ihB, ihC, ihD⟩ := ih hchr
          (fun z hz => hpos z (List.mem_cons_of_mem g hz))
        refine ⟨?_, ?_, ?_, ?_⟩
        · refine List.chain'_cons'.mpr ⟨?_, ihA⟩
          intro y hy
          rcases ihC with hnil | hhead
          · rw [hnil] at hy
            simp at hy
          · cases rest with
            | nil => simp [List.filterMap_nil] at hy
            | cons r rest'' =>
              have hadj : g.e = r.s := (List.chain'_cons.mp hch).1
              rw [hy] at hhead
              simp only [List.head?_cons, Option.map_some', Option.some.injEq] at hhead
              show g.e = y.s
              rw [hadj, hhead]
        · intro g' hg'
          rcases List.mem_cons.mp hg' with rfl | hg''
          · exact hgpos
          · exact ihB g' hg''
        · exact Or.inr (by simp)
        · refine Or.inr ?_
          by_cases hknil : rest.filterMap (truncateSeg back) = []
          · cases rest with
            | nil =>
              rw [List.filterMap_nil]
              refine Or.inr ⟨by simp, ?_⟩
              intro g' hg'
              simp only [List.mem_singleton] at hg'
              subst hg'
              exact heb
            | cons r rest'' =>
              have hrnone : truncateSeg back r = none :=
                List.filterMap_eq_nil_iff.mp hknil r (by simp)
              have hback_r : back ≤ r.s := (truncateSeg_none_iff back r).mp hrnone
              have hadj : g.e = r.s := (List.chain'_cons.mp hch).1
              have hgeb : g.e = back := le_antisymm heb (hadj ▸ hback_r)
              rw [hknil]
              exact Or.inl (by simp [hgeb])
          · obtain ⟨k1, k', hk⟩ := List.exists_cons_of_ne_nil hknil
            rw [hk, List.getLast?_cons_cons]
            rcases ihD with hnil | ihD'
            · exact absurd hnil hknil
            · rw [hk] at ihD'
              rcases ihD' with hinl | ⟨hlast, hall⟩
              · exact Or.inl hinl
              · cases rest with
                | nil => simp [List.filterMap_nil] at hknil
                | cons r rest'' =>
                  refine Or.inr ⟨?_, ?_⟩
                  · rw [List.getLast?_cons_cons]
                    exact hlast
                  · intro g' hg'
                    rcases List.mem_cons.mp hg' with rfl | hg''
                    · exact heb
                    · exact hall g' hg''

theorem truncate_labels (back : ℚ) (l : List Seg) :
    List.Sublist ((l.filterMap (truncateSeg back)).map Seg.lab)
      (l.map Seg.lab) := by
  induction l with
  | nil => simp
  | cons g rest ih =>
    rw [List.filterMap_cons]
    rcases hg : truncateSeg back g with _ | v
    · exact ih.cons g.lab
    · have hlab : v.lab = g.lab := by
        unfold truncateSeg at hg
        split at hg
        · simp at hg
        · split at hg
          · simp only [Option.some.injEq] at hg
            rw [← hg]
          · simp only [Option.some.injEq] at hg
            rw [← hg]
      simp only [List.map_cons]
      rw [← hlab]
      exact ih.cons₂ v.lab

theorem buildBase_ne_nil (m0 : Mark) (rest : List Mark) (total : ℚ) :
    buildBaseSegments (m0 :: rest) total ≠ [] := by
  rw [buildBaseSegments]
  intro h
  rcases List.append_eq_nil.mp h with ⟨_, h2⟩
  exact chapterSegs_ne_nil m0 rest total h2

theorem buildSegments_props (marks : List Mark) (back? : Option ℚ) (total : ℚ)
    (hsort : marks.Pairwise (fun a b => a.ts < b.ts))
    (htot : ∀ m ∈ marks, m.ts < total) :
    List.Chain' SegAdj (buildSegments marks back? total) ∧
      (∀ g ∈ buildSegments marks back? total,
        g.lab.isChapter = true → g.s < g.e) ∧
      GoodShape (buildSegments marks back? total) := by
  cases marks with
  | nil =>
    cases back? with
    | none =>
      rw [show buildSegments [] none total = [⟨0, total, .preface⟩] from rfl]
      refine ⟨by simp, ?_, ⟨[.preface], [], [], by simp, by simp, by simp,
        by simp, by simp, by simp⟩⟩
      intro g hg hch
      simp only [List.mem_singleton] at hg
      subst hg
      simp [SegLabel.isChapter] at hch
    | some back =>
      rw [show buildSegments [] (some back) total =
        (if (1 : ℚ) < back then
          [⟨0, back, .preface⟩, ⟨back, total, .backMatter⟩]
        else [⟨0, total, .preface⟩]) from rfl]
      by_cases hb : (1 : ℚ) < back
      · rw [if_pos hb]
        refine ⟨?_, ?_, ⟨[.preface], [], [.backMatter], by simp, by simp,
          by simp, by simp, by simp, by simp⟩⟩
        · exact List.chain'_pair.mpr rfl
        · intro g hg hch
          rcases List.mem_cons.mp hg with rfl | hg'
          · simp [SegLabel.isChapter] at hch
          · simp only [List.mem_singleton] at hg'
            subst hg'
            simp [SegLabel.isChapter] at hch
      · rw [if_neg hb]
        refine ⟨by simp, ?_, ⟨[.preface], [], [], by simp, by simp, by simp,
          by simp, by simp, by simp⟩⟩
        intro g hg hch
        simp only [List.mem_singleton] at hg
        subst hg
        simp [SegLabel.isChapter] at hch
  | cons m0 rest =>
    have hch := buildBase_chain (m0 :: rest) total
    have hpos := buildBase_pos (m0 :: rest) total hsort htot
    obtain ⟨a, b, hab, hal, hap, hbc⟩ := buildBase_shape (m0 :: rest) total
    have hlast := buildBase_last (m0 :: rest) total (by simp)
    rw [show buildSegments (m0 :: rest) back? total =
      applyBack (buildBaseSegments (m0 :: rest) total) back? total from rfl]
    cases back? with
    | none =>
      rw [show applyBack (buildBaseSegments (m0 :: rest) total) none total =
        buildBaseSegments (m0 :: rest) total from rfl]
      refine ⟨hch, fun g hg _ => hpos g hg, ⟨a, b, [], by simpa using hab,
        hal, hap, hbc, by simp, by simp⟩⟩
    | some back =>
      obtain ⟨kA, kB, kC, kD⟩ := truncate_bundle back _ hch hpos
      rw [show applyBack (buildBaseSegments (m0 :: rest) total) (some back)
          total =
        (buildBaseSegments (m0 :: rest) total).filterMap (truncateSeg back) ++
          (if (1 : ℚ) ≤ total - back then [⟨back, total, .backMatter⟩]
            else []) from rfl]
      obtain ⟨a', b', hk, ha', hb'⟩ := List.sublist_append_iff.mp
        (hab ▸ truncate_labels back (buildBaseSegments (m0 :: rest) total))
      by_cases hif : (1 : ℚ) ≤ total - back
      · rw [if_pos hif]
        refine ⟨?_, ?_, ?_⟩
        · rw [List.chain'_append]
          refine ⟨kA, List.chain'_singleton _, ?_⟩
          intro x hx y hy
          simp only [List.head?_cons, Option.mem_def, Option.some.injEq] at hy
          subst hy
          show x.e = back
          rcases kD with hnil | hD
          · rw [hnil] at hx
            simp at hx
          · rcases hD with hD | ⟨hD, hall⟩
            · rw [Option.mem_def] at hx
              rw [hx] at hD
              simpa using hD
            · exfalso
              obtain ⟨gl, hgl, hgle⟩ := Option.map_eq_some'.mp hlast
              have hgmem := List.mem_of_getLast?_eq_some hgl
              have hgb := hall gl hgmem
              rw [hgle] at hgb
              linarith
        · intro g hg hchap
          rcases List.mem_append.mp hg with hg' | hg'
          · exact kB g hg'
          · simp only [List.mem_singleton] at hg'
            subst hg'
            simp [SegLabel.isChapter] at hchap
        · refine ⟨a', b', [.backMatter], ?_, le_trans ha'.length_le hal,
            fun x hx => hap x (ha'.subset hx),
            fun x hx => hbc x (hb'.subset hx), by simp, by simp⟩
          rw [List.map_append, hk]
          simp
      · rw [if_neg hif]
        refine ⟨by simpa using kA, ?_, ⟨a', b', [], by simpa using hk,
          le_trans ha'.length_le hal, fun x hx => hap x (ha'.subset hx),
          fun x hx => hbc x (hb'.subset hx), by simp, by simp⟩⟩
        intro g hg hchap
        rw [List.append_nil] at hg
        exact kB g hg

theorem pass1Go_head (minDur : ℚ) (cur : Seg) (rest : List Seg) :
    (pass1Go minDur cur rest).head?.map Seg.s = some cur.s := by
  induction rest generalizing cur with
  | nil => simp [pass1Go]
  | cons g rest' ih =>
    rw [pass1Go]
    split
    · exact ih ⟨cur.s, g.e, cur.lab⟩
    · simp

theorem pass1Go_chain (minDur : ℚ) (cur : Seg) (rest : List Seg)
    (hch : List.Chain' SegAdj (cur :: rest)) :
    List.Chain' SegAdj (pass1Go minDur cur rest) := by
  induction rest generalizing cur with
  | nil => simp [pass1Go]
  | cons g rest' ih =>
    rw [pass1Go]
    have hadj : cur.e = g.s := (List.chain'_cons.mp hch).1
    have hchr : List.Chain' SegAdj (g :: rest') := (List.chain'_cons.mp hch).2
    split
    · apply ih
      refine List.chain'_cons'.mpr ⟨?_, (List.chain'_cons'.mp hchr).2⟩
      intro y hy
      exact (List.chain'_cons'.mp hchr).1 y hy
    · refine List.chain'_cons'.mpr ⟨?_, ih g hchr⟩
      intro y hy
      have hh := pass1Go_head minDur g rest'
      rw [Option.mem_def] at hy
      rw [hy] at hh
      simp only [Option.map_some', Option.some.injEq] at hh
      show cur.e = y.s
      rw [hadj, hh]

theorem pass1Go_long (minDur : ℚ) (cur : Seg) (rest : List Seg)
    (hch : List.Chain' SegAdj (cur :: rest))
    (hpos : ∀ g ∈ rest, g.lab.isChapter = true → g.s < g.e)
    (hcur : cur.lab.isChapter = true → minDur ≤ cur.e - cur.s) :
    ∀ g ∈ pass1Go minDur cur rest, g.lab.isChapter = true →
      minDur ≤ g.e - g.s := by
  induction rest generalizing cur with
  | nil =>
    simp only [pass1Go, List.mem_singleton]
    rintro g rfl
    exact hcur
  | cons g rest' ih =>
    rw [pass1Go]
    have hadj : cur.e = g.s := (List.chain'_cons.mp hch).1
    have hchr : List.Chain' SegAdj (g :: rest') := (List.chain'_cons.mp hch).2
    by_cases hs : segShort minDur g = true
    · rw [if_pos hs]
      have hscomp := hs
      simp only [segShort, Bool.and_eq_true, decide_eq_true_eq] at hscomp
      have hgpos : g.s < g.e := hpos g (by simp) hscomp.1
      apply ih ⟨cur.s, g.e, cur.lab⟩
      · refine List.chain'_cons'.mpr ⟨?_, (List.chain'_cons'.mp hchr).2⟩
        intro y hy
        exact (List.chain'_cons'.mp hchr).1 y hy
      · intro z hz h
        exact hpos z (List.mem_cons_of_mem g hz) h
      · intro hc
        have hcd := hcur hc
        show minDur ≤ g.e - cur.s
        have : cur.e = g.s := hadj
        linarith
    · rw [if_neg hs]
      intro z hz
      rcases List.mem_cons.mp hz with rfl | hz'
      · exact hcur
      · refine ih g hchr (fun w hw h => hpos w (List.mem_cons_of_mem g hw) h)
          ?_ z hz'
        intro hgc
        simp only [segShort, Bool.and_eq_true, decide_eq_true_eq, not_and,
          not_lt] at hs
        exact hs hgc

theorem pass1Go_labels (minDur : ℚ) (cur : Seg) (rest : List Seg) :
    ∃ tl, (pass1Go minDur cur rest).map Seg.lab = cur.lab :: tl ∧
      List.Sublist tl (rest.map Seg.lab) := by
  induction rest generalizing cur with
  | nil => exact ⟨[], by simp [pass1Go], by simp⟩
  | cons g rest' ih =>
    rw [pass1Go]
    split
    · obtain ⟨tl, htl, hsub⟩ := ih ⟨cur.s, g.e, cur.lab⟩
      exact ⟨tl, htl, by simpa using hsub.cons g.lab⟩
    · obtain ⟨tl, htl, hsub⟩ := ih g
      refine ⟨g.lab :: tl, by simp [htl], ?_⟩
      simp only [List.map_cons]
      exact hsub.cons₂ g.lab

theorem pass1_chain (minDur : ℚ) (l : List Seg)
    (hch : List.Chain' SegAdj l) :
    List.Chain' SegAdj (pass1 minDur l) := by
  induction l with
  | nil => simp [pass1]
  | cons g rest ih =>
    rw [pass1]
    split
    · exact ih ((List.chain'_cons'.mp hch).2)
    · exact pass1Go_chain minDur g rest hch

theorem pass1_long (minDur : ℚ) (l : List Seg)
    (hch : List.Chain' SegAdj l)
    (hpos : ∀ g ∈ l, g.lab.isChapter = true → g.s < g.e) :
    ∀ g ∈ pass1 minDur l, g.lab.isChapter = true → minDur ≤ g.e - g.s := by
  induction l with
  | nil => simp [pass1]
  | cons g rest ih =>
    rw [pass1]
    by_cases hs : segShort minDur g = true
    · rw [if_pos hs]
      exact ih ((List.chain'_cons'.mp hch).2)
        (fun w hw h => hpos w (List.mem_cons_of_mem g hw) h)
    · rw [if_neg hs]
      refine pass1Go_long minDur g rest hch
        (fun w hw h => hpos w (List.mem_cons_of_mem g hw) h) ?_
      intro hgc
      simp only [segShort, Bool.and_eq_true, decide_eq_true_eq, not_and,
        not_lt] at hs
      exact hs hgc

theorem pass1_labels (minDur : ℚ) (l : List Seg) :
    List.Sublist ((pass1 minDur l).map Seg.lab) (l.map Seg.lab) := by
  induction l with
  | nil => simp [pass1]
  | cons g rest ih =>
    rw [pass1]
    split
    · exact ih.cons g.lab
    · obtain ⟨tl, htl, hsub⟩ := pass1Go_labels minDur g rest
      rw [htl]
      simp only [List.map_cons]
      exact hsub.cons₂ g.lab

theorem goodShape_of_label_sublist (l l' : List Seg)
    (hsub : List.Sublist (l'.map Seg.lab) (l.map Seg.lab))
    (hgs : GoodShape l) : GoodShape l' := by
  obtain ⟨a, b, c, heq, hal, hap, hbc, hcl, hcb⟩ := hgs
  rw [heq] at hsub
  obtain ⟨u, v, huv, hu, hv⟩ := List.sublist_append_iff.mp hsub
  obtain ⟨u1, u2, hu12, hu1, hu2⟩ := List.sublist_append_iff.mp hu
  refine ⟨u1, u2, v, ?_, le_trans hu1.length_le hal,
    fun x hx => hap x (hu1.subset hx), fun x hx => hbc x (hu2.subset hx),
    le_trans hv.length_le hcl, fun x hx => hcb x (hv.subset hx)⟩
  rw [huv, hu12]

theorem pass2_id (minDur : ℚ) (l : List Seg) (hmin : 1 ≤ minDur)
    (hlong : ∀ g ∈ l, g.lab.isChapter = true → minDur ≤ g.e - g.s) :
    pass2 minDur l = l := by
  unfold pass2
  apply List.filter_eq_self.mpr
  intro g hg
  by_cases hc : g.lab.isChapter = true
  · have hd := hlong g hg hc
    simp only [hc, Bool.true_and, Bool.not_eq_true', decide_eq_false_iff_not,
      not_lt]
    apply le_trans _ hd
    apply max_le hmin
    linarith
  · simp only [Bool.not_eq_true] at hc
    simp [hc]

theorem list_three_split (l : List Seg) :
    l = [] ∨ (∃ x, l = [x]) ∨ ∃ x m y, l = x :: m ++ [y] := by
  cases l with
  | nil => exact Or.inl rfl
  | cons x t =>
    rcases List.eq_nil_or_concat t with rfl | ⟨m, y, rfl⟩
    · exact Or.inr (Or.inl ⟨x, rfl⟩)
    · exact Or.inr (Or.inr ⟨x, m, y, by simp⟩)

theorem labelList_le_one (ls : List SegLabel) (h : ls.length ≤ 1) :
    ls = [] ∨ ∃ z, ls = [z] := by
  cases ls with
  | nil => exact Or.inl rfl
  | cons z t =>
    cases t with
    | nil => exact Or.inr ⟨z, rfl⟩
    | cons w t' => simp at h

theorem goodShape_middle_chapter (x y : Seg) (m : List Seg)
    (hgs : GoodShape (x :: m ++ [y])) :
    ∀ g ∈ m, g.lab.isChapter = true := by
  obtain ⟨a, b, c, heq, hal, hap, hbc, hcl, hcb⟩ := hgs
  simp only [List.map_cons, List.map_append, List.map_nil] at heq
  intro g hg
  have hmem : g.lab ∈ m.map Seg.lab := List.mem_map_of_mem Seg.lab hg
  suffices hb : g.lab ∈ b by exact hbc _ hb
  rcases labelList_le_one a hal with rfl | ⟨za, rfl⟩
  · rcases labelList_le_one c hcl with rfl | ⟨zc, rfl⟩
    · simp only [List.append_nil, List.nil_append] at heq
      rw [← heq]
      exact List.mem_cons_of_mem _ (List.mem_append_left _ hmem)
    · simp only [List.nil_append] at heq
      have heq2 : (x.lab :: m.map Seg.lab) ++ [y.lab] = b ++ [zc] := by
        simpa using heq
      obtain ⟨hb1, -⟩ := List.append_inj' heq2 rfl
      rw [← hb1]
      exact List.mem_cons_of_mem _ hmem
  · rcases labelList_le_one c hcl with rfl | ⟨zc, rfl⟩
    · simp only [List.append_nil, List.singleton_append] at heq
      injection heq with h1 heq2
      have heq3 : m.map Seg.lab ++ [y.lab] = b := by simpa using heq2
      rw [← heq3]
      exact List.mem_append_left _ hmem
    · simp only [List.singleton_append] at heq
      injection heq with h1 heq2
      have heq3 : (m.map Seg.lab) ++ [y.lab] = b ++ [zc] := by
        simpa using heq2
      obtain ⟨hb1, -⟩ := List.append_inj' heq3 rfl
      rw [← hb1]
      exact hmem

theorem filter_chain_ends (p : Seg → Bool) (x y : Seg) (m : List Seg)
    (hch : List.Chain' SegAdj (x :: m ++ [y]))
    (hm : ∀ g ∈ m, p g = true) :
    List.Chain' SegAdj ((x :: m ++ [y]).filter p) := by
  have hfm : m.filter p = m := List.filter_eq_self.mpr hm
  simp only [List.filter_cons, List.filter_append, hfm, List.filter_nil]
  have hchm : List.Chain' SegAdj (m ++ [y]) := (List.chain'_cons'.mp hch).2
  by_cases hpx : p x = true
  · by_cases hpy : p y = true
    · simp only [hpx, hpy, if_true]
      exact hch
    · rw [Bool.not_eq_true] at hpy
      simp only [hpx, hpy, if_true, Bool.false_eq_true, if_false,
        List.append_nil]
      have h2 : (x :: m) ++ [y] = x :: m ++ [y] := by simp
      rw [← h2] at hch
      exact (List.chain'_append.mp hch).1
  · rw [Bool.not_eq_true] at hpx
    by_cases hpy : p y = true
    · simp only [hpx, hpy, Bool.false_eq_true, if_false, if_true]
      exact hchm
    · rw [Bool.not_eq_true] at hpy
      simp only [hpx, hpy, Bool.false_eq_true, if_false, List.append_nil]
      exact (List.chain'_append.mp hchm).1

/-- C2 (amended): provided `min_chapter_duration ≥ 1`, for every segment list
produced by the segment builder from strictly time-sorted marks that precede
the total duration, consecutive segments are contiguous
(`segments[i].end = segments[i+1].start`) and no retained segment is shorter
than 1.0 second.  (The no-short-segment half holds unconditionally; for
`min_chapter_duration < 1` pass 2 can drop a middle chapter segment and break
contiguity — see the counterexample.) -/
theorem C2_segments_contiguous (marks : List Mark) (back? : Option ℚ)
    (total minDur : ℚ)
    (hsort : marks.Pairwise (fun a b => a.ts < b.ts))
    (htot : ∀ m ∈ marks, m.ts < total) (hmin : 1 ≤ minDur) :
    List.Chain' SegAdj (segmentBuilder marks back? total minDur) ∧
      ∀ g ∈ segmentBuilder marks back? total minDur, 1 ≤ g.e - g.s := by
  obtain ⟨hch, hpos, hgs⟩ := buildSegments_props marks back? total hsort htot
  have h1ch := pass1_chain minDur (buildSegments marks back? total) hch
  have h1long := pass1_long minDur (buildSegments marks back? total) hch hpos
  have h1gs := goodShape_of_label_sublist _ _
    (pass1_labels minDur (buildSegments marks back? total)) hgs
  unfold segmentBuilder
  rw [pass2_id minDur _ hmin h1long]
  constructor
  · unfold finalClean
    rcases list_three_split (pass1 minDur (buildSegments marks back? total))
      with hnil | ⟨x, hone⟩ | ⟨x, m, y, hxy⟩
    · rw [hnil]
      simp
    · rw [hone]
      by_cases hp : (decide (1 ≤ x.e - x.s)) = true
      · simp [hp]
      · simp [List.filter_cons, hp]
    · rw [hxy]
      apply filter_chain_ends _ x y m (hxy ▸ h1ch)
      intro g hg
      have hgc : g.lab.isChapter = true :=
        goodShape_middle_chapter x y m (hxy ▸ h1gs) g hg
      have hgl := h1long g (by
        rw [hxy]
        exact List.mem_cons_of_mem x (List.mem_append_left [y] hg)) hgc
      simp only [decide_eq_true_eq]
      linarith
  · intro g hg
    unfold finalClean at hg
    have := (List.mem_filter.mp hg).2
    simpa using this

theorem segsChainB_iff (l : List Seg) :
    segsChainB l = true ↔ List.Chain' SegAdj l := by
  induction l with
  | nil => simp [segsChainB]
  | cons a t ih =>
    cases t with
    | nil => simp [segsChainB]
    | cons b t' =>
      rw [segsChainB, List.chain'_cons, Bool.and_eq_true, decide_eq_true_eq,
        ← ih]
      exact Iff.rfl

/-- C2 counterexample: with `min_chapter_duration = 0.5` and strictly sorted
marks at t = 10, 10.6, 20 (total duration 100), pass 2 drops the middle
chapter segment `[10, 10.6)` and the resulting segment list has a gap between
10 and 10.6 — consecutive segments are not contiguous. -/
theorem C2_counterexample :
    ¬ List.Chain' SegAdj
      (segmentBuilder [⟨10, 11, 1⟩, ⟨53 / 5, 11, 2⟩, ⟨20, 21, 3⟩] none 100
        (1 / 2)) := by
  rw [← segsChainB_iff]
  with_unfolding_all decide

/-- Witness for C2 (amended): two well-separated marks, default-like
parameters. -/
theorem C2_witness :
    ([⟨10, 11, 1⟩, ⟨200, 201, 2⟩] : List Mark).Pairwise
        (fun a b => a.ts < b.ts) ∧
      (∀ m ∈ ([⟨10, 11, 1⟩, ⟨200, 201, 2⟩] : List Mark), m.ts < 400) ∧
      (1 : ℚ) ≤ 120 ∧
      (List.Chain' SegAdj
          (segmentBuilder [⟨10, 11, 1⟩, ⟨200, 201, 2⟩] none 400 120) ∧
        ∀ g ∈ segmentBuilder [⟨10, 11, 1⟩, ⟨200, 201, 2⟩] none 400 120,
          1 ≤ g.e - g.s) :=
  ⟨by decide, by decide, by norm_num,
    C2_segments_contiguous [⟨10, 11, 1⟩, ⟨200, 201, 2⟩] none 400 120
      (by decide) (by decide) (by norm_num)⟩

theorem english_cardinalGo_fuel_lt100 (f : Nat) (n : Nat) (h : n < 100) :
    english_cardinalGo (f + 1) n = english_cardinalGo 1 n := by
  simp only [english_cardinalGo]
  by_cases h0 : n = 0
  · simp [h0]
  · simp only [h0, if_false]
    by_cases h10 : n < 10
    · simp [h10]
    · simp only [h10, if_false]
      by_cases h20 : n < 20
      · simp [h20]
      · simp [h20, h]

theorem enCardWordsGo_fuel_lt100 (f : Nat) (n : Nat) (h : n < 100) :
    enCardWordsGo (f + 1) n = enCardWordsGo 1 n := by
  simp only [enCardWordsGo]
  by_cases h10 : n < 10
  · simp [h10]
  · simp only [h10, if_false]
    by_cases h20 : n < 20
    · simp [h20]
    · simp [h20, h]

theorem enCardWords_ne_nil (f : Nat) (n : Nat) :
    enCardWordsGo (f + 1) n ≠ [] := by
  simp only [enCardWordsGo]
  split
  · simp
  · split
    · simp
    · split
      · split <;> simp
      · split <;> simp

theorem english_cardinal_eq_join_small (n : Nat) (h1 : 1 ≤ n) (h99 : n ≤ 99) :
    english_cardinal n = wordsJoin (enCardWords n) := by
  interval_cases n <;> decide

theorem english_cardinal_eq_join : ∀ n, 1 ≤ n → n ≤ 999 →
    english_cardinal n = wordsJoin (enCardWords n) := by
  intro n
  induction n using Nat.strong_induction_on with
  | _ n ih =>
    intro h1 h999
    by_cases h99 : n ≤ 99
    · exact english_cardinal_eq_join_small n h1 h99
    · have h100 : 100 ≤ n := by omega
      have hrem9 : n % 100 ≤ 99 := by omega
      show english_cardinalGo 2 n = wordsJoin (enCardWordsGo 2 n)
      rw [show english_cardinalGo 2 n =
          (if n % 100 = 0 then enUnits.getD (n / 100) "" ++ " hundred"
           else enUnits.getD (n / 100) "" ++ " hundred " ++
             english_cardinalGo 1 (n % 100)) by
        simp only [english_cardinalGo]
        rw [if_neg (by omega), if_neg (by omega), if_neg (by omega),
          if_neg (by omega), if_pos (by omega)]]
      rw [show enCardWordsGo 2 n =
          (if n % 100 = 0 then [enUnits.getD (n / 100) "", "hundred"]
           else enUnits.getD (n / 100) "" :: "hundred" ::
             enCardWordsGo 1 (n % 100)) by
        simp only [enCardWordsGo]
        rw [if_neg (by omega), if_neg (by omega), if_neg (by omega)]]
      by_cases hrem : n % 100 = 0
      · rw [if_pos hrem, if_pos hrem]
        show _ = enUnits.getD (n / 100) "" ++ " " ++ "hundred"
        rw [String.append_assoc]
        rfl
      · rw [if_neg hrem, if_neg hrem]
        have hrem1 : 1 ≤ n % 100 := by omega
        have hcard : english_cardinalGo 1 (n % 100) =
            wordsJoin (enCardWordsGo 1 (n % 100)) := by
          rw [show (1 : Nat) = 0 + 1 from rfl,
            ← english_cardinalGo_fuel_lt100 1 (n % 100) (by omega),
            ← enCardWordsGo_fuel_lt100 1 (n % 100) (by omega)]
          exact ih (n % 100) (by omega) hrem1 (by omega)
        obtain ⟨w, ws, hw⟩ := List.exists_cons_of_ne_nil
          (enCardWords_ne_nil 0 (n % 100))
        rw [hcard, hw]
        show _ = enUnits.getD (n / 100) "" ++ " " ++
          ("hundred" ++ " " ++ wordsJoin (w :: ws))
        rw [String.append_assoc, String.append_assoc, String.append_assoc]
        rfl

theorem tblIdx_enUnits (u : Nat) (h1 : 1 ≤ u) (h9 : u ≤ 9) :
    tblIdx enUnits (enUnits.getD u "") = some u := by
  interval_cases u <;> decide

theorem decodeEn_correct_small (n : Nat) (h1 : 1 ≤ n) (h99 : n ≤ 99) :
    decodeEnWords (enCardWords n) = some n := by
  interval_cases n <;> decide

theorem decodeEn_correct : ∀ n, 1 ≤ n → n ≤ 999 →
    decodeEnWords (enCardWords n) = some n := by
  intro n
  induction n using Nat.strong_induction_on with
  | _ n ih =>
    intro h1 h999
    by_cases h99 : n ≤ 99
    · exact decodeEn_correct_small n h1 h99
    · have h100 : 100 ≤ n := by omega
      show decodeEnWords (enCardWordsGo 2 n) = some n
      rw [show enCardWordsGo 2 n =
          (if n % 100 = 0 then [enUnits.getD (n / 100) "", "hundred"]
           else enUnits.getD (n / 100) "" :: "hundred" ::
             enCardWordsGo 1 (n % 100)) by
        simp only [enCardWordsGo]
        rw [if_neg (by omega), if_neg (by omega), if_neg (by omega)]]
      have hu := tblIdx_enUnits (n / 100) (by omega) (by omega)
      by_cases hrem : n % 100 = 0
      · rw [if_pos hrem]
        show decodeEnWords [enUnits.getD (n / 100) "", "hundred"] = some n
        rw [show decodeEnWords [enUnits.getD (n / 100) "", "hundred"] =
            (tblIdx enUnits (enUnits.getD (n / 100) "")).map (· * 100) from by
          rw [decodeEnWords, if_pos rfl]]
        rw [hu]
        simp only [Option.map_some', Option.some.injEq]
        omega
      · rw [if_neg hrem]
        obtain ⟨w, ws, hw⟩ := List.exists_cons_of_ne_nil
          (enCardWords_ne_nil 0 (n % 100))
        have hrec : decodeEnWords (enCardWordsGo 1 (n % 100)) =
            some (n % 100) := by
          rw [← enCardWordsGo_fuel_lt100 1 (n % 100) (by omega)]
          exact ih (n % 100) (by omega) (by omega) (by omega)
        rw [hw]
        rw [show decodeEnWords (enUnits.getD (n / 100) "" :: "hundred" ::
            w :: ws) =
            (match tblIdx enUnits (enUnits.getD (n / 100) ""),
                decodeEnWords (w :: ws) with
              | some h, some r => some (100 * h + r)
              | _, _ => none) from by
          rw [decodeEnWords, if_pos rfl]]
        rw [hw] at hrec
        rw [hu, hrec]
        simp only [Option.some.injEq]
        omega

theorem enUnits_ok (u : Nat) (h1 : 1 ≤ u) (h9 : u ≤ 9) :
    okWord (enUnits.getD u "") := by
  interval_cases u <;> decide

theorem enCardWords_ok_small (n : Nat) (h1 : 1 ≤ n) (h99 : n ≤ 99) :
    ∀ w ∈ enCardWords n, okWord w := by
  interval_cases n <;> decide

theorem enCardWords_ok : ∀ n, 1 ≤ n → n ≤ 999 →
    ∀ w ∈ enCardWords n, okWord w := by
  intro n
  induction n using Nat.strong_induction_on with
  | _ n ih =>
    intro h1 h999
    by_cases h99 : n ≤ 99
    · exact enCardWords_ok_small n h1 h99
    · have h100 : 100 ≤ n := by omega
      show ∀ w ∈ enCardWordsGo 2 n, okWord w
      rw [show enCardWordsGo 2 n =
          (if n % 100 = 0 then [enUnits.getD (n / 100) "", "hundred"]
           else enUnits.getD (n / 100) "" :: "hundred" ::
             enCardWordsGo 1 (n % 100)) by
        simp only [enCardWordsGo]
        rw [if_neg (by omega), if_neg (by omega), if_neg (by omega)]]
      have hok := enUnits_ok (n / 100) (by omega) (by omega)
      by_cases hrem : n % 100 = 0
      · rw [if_pos hrem]
        intro w hw
        rcases List.mem_cons.mp hw with rfl | hw'
        · exact hok
        · simp only [List.mem_singleton] at hw'
          subst hw'
          decide
      · rw [if_neg hrem]
        intro w hw
        rcases List.mem_cons.mp hw with rfl | hw'
        · exact hok
        · rcases List.mem_cons.mp hw' with rfl | hw''
          · decide
          · rw [← enCardWordsGo_fuel_lt100 1 (n % 100) (by omega)] at hw''
            exact ih (n % 100) (by omega) (by omega) (by omega) w hw''

theorem wordsJoin_data : ∀ ws : List String,
    (wordsJoin ws).data = charJoin (ws.map String.data) := by
  intro ws
  induction ws with
  | nil => rfl
  | cons w ws ih =>
    cases ws with
    | nil => rfl
    | cons w' ws' =>
      show (w ++ " " ++ wordsJoin (w' :: ws')).data = _
      rw [String.data_append, String.data_append, ih]
      show w.data ++ [' '] ++ _ = _
      rw [List.append_assoc]
      rfl

theorem append_cons_inj (c : Char) :
    ∀ l1 l2 r1 r2 : List Char, c ∉ l1 → c ∉ l2 →
      l1 ++ c :: r1 = l2 ++ c :: r2 → l1 = l2 ∧ r1 = r2 := by
  intro l1
  induction l1 with
  | nil =>
    intro l2 r1 r2 h1 h2 heq
    cases l2 with
    | nil =>
      simp only [List.nil_append] at heq
      injection heq with _ h
      exact ⟨rfl, h⟩
    | cons x l2' =>
      simp only [List.nil_append, List.cons_append] at heq
      injection heq with hx h
      subst hx
      exact absurd (List.mem_cons_self c l2') h2
  | cons x l1' ih =>
    intro l2 r1 r2 h1 h2 heq
    cases l2 with
    | nil =>
      simp only [List.cons_append, List.nil_append] at heq
      injection heq with hx h
      subst hx
      exact absurd (List.mem_cons_self x l1') h1
    | cons y l2' =>
      simp only [List.cons_append] at heq
      injection heq with hxy h
      subst hxy
      obtain ⟨ha, hb⟩ := ih l2' r1 r2 (fun hm => h1 (List.mem_cons_of_mem x hm))
        (fun hm => h2 (List.mem_cons_of_mem x hm)) h
      exact ⟨by rw [ha], hb⟩

theorem charJoin_inj : ∀ ws1 ws2 : List (List Char),
    (∀ w ∈ ws1, w ≠ [] ∧ ' ' ∉ w) → (∀ w ∈ ws2, w ≠ [] ∧ ' ' ∉ w) →
      charJoin ws1 = charJoin ws2 → ws1 = ws2 := by
  intro ws1
  induction ws1 with
  | nil =>
    intro ws2 h1 h2 heq
    cases ws2 with
    | nil => rfl
    | cons w2 ws2' =>
      exfalso
      cases ws2' with
      | nil =>
        exact (h2 w2 (by simp)).1 (by simpa [charJoin] using heq.symm)
      | cons w3 ws3 =>
        have : ([] : List Char) = w2 ++ ' ' :: charJoin (w3 :: ws3) := heq
        exact absurd this.symm (by simp)
  | cons w1 ws1' ih =>
    intro ws2 h1 h2 heq
    cases ws2 with
    | nil =>
      exfalso
      cases ws1' with
      | nil =>
        exact (h1 w1 (by simp)).1 (by simpa [charJoin] using heq)
      | cons w3 ws3 =>
        have : w1 ++ ' ' :: charJoin (w3 :: ws3) = ([] : List Char) := heq
        exact absurd this (by simp)
    | cons w2 ws2' =>
      cases ws1' with
      | nil =>
        cases ws2' with
        | nil =>
          have : w1 = w2 := heq
          rw [this]
        | cons w3 ws3 =>
          exfalso
          have hsp : ' ' ∈ w1 := by
            have : w1 = w2 ++ ' ' :: charJoin (w3 :: ws3) := heq
            rw [this]
            exact List.mem_append_right _ (List.mem_cons_self _ _)
          exact (h1 w1 (by simp)).2 hsp
      | cons w3 ws3 =>
        cases ws2' with
        | nil =>
          exfalso
          have hsp : ' ' ∈ w2 := by
            have : w2 = w1 ++ ' ' :: charJoin (w3 :: ws3) := heq.symm
            rw [this]
            exact List.mem_append_right _ (List.mem_cons_self _ _)
          exact (h2 w2 (by simp)).2 hsp
        | cons w4 ws4 =>
          have heq' : w1 ++ ' ' :: charJoin (w3 :: ws3) =
              w2 ++ ' ' :: charJoin (w4 :: ws4) := heq
          obtain ⟨ha, hb⟩ := append_cons_inj ' ' w1 w2 _ _
            (h1 w1 (by simp)).2 (h2 w2 (by simp)).2 heq'
          have htail := ih (w4 :: ws4)
            (fun w hw => h1 w (List.mem_cons_of_mem w1 hw))
            (fun w hw => h2 w (List.mem_cons_of_mem w2 hw)) hb
          rw [ha, htail]

theorem wordsJoin_inj (ws1 ws2 : List String)
    (h1 : ∀ w ∈ ws1, okWord w) (h2 : ∀ w ∈ ws2, okWord w)
    (heq : wordsJoin ws1 = wordsJoin ws2) : ws1 = ws2 := by
  have hok : ∀ ws : List String, (∀ w ∈ ws, okWord w) →
      ∀ w ∈ ws.map String.data, w ≠ [] ∧ ' ' ∉ w := by
    intro ws hws w hw
    obtain ⟨v, hv, rfl⟩ := List.mem_map.mp hw
    obtain ⟨hne, hwh⟩ := hws v hv
    constructor
    · intro hd
      exact hne (by cases v with | _ d => simp_all)
    · intro hsp
      have := hwh ' ' hsp
      simp [Char.isWhitespace] at this
  have hdata : charJoin (ws1.map String.data) =
      charJoin (ws2.map String.data) := by
    rw [← wordsJoin_data, ← wordsJoin_data, heq]
  have hmap := charJoin_inj (ws1.map String.data) (ws2.map String.data)
    (hok ws1 h1) (hok ws2 h2) hdata
  have hinj : Function.Injective String.data := by
    intro a b hab
    cases a with | _ d1 => cases b with | _ d2 => exact congrArg String.mk hab
  exact List.map_injective_iff.mpr hinj hmap

theorem valOfChars_append (l : List Char) (c : Char) :
    valOfChars (l ++ [c]) = 10 * valOfChars l + charVal c := by
  unfold valOfChars
  rw [List.foldl_append]
  rfl

theorem charVal_digitChar (d : Nat) (h : d < 10) :
    charVal (Nat.digitChar d) = d := by
  interval_cases d <;> decide

theorem decChars_val : ∀ n, valOfChars (decChars n) = n := by
  intro n
  induction n using Nat.strong_induction_on with
  | _ n ih =>
    rw [decChars]
    by_cases h : n < 10
    · rw [if_pos h]
      show valOfChars [Nat.digitChar n] = n
      unfold valOfChars
      simp [List.foldl_cons, charVal_digitChar n h]
    · rw [if_neg h]
      rw [valOfChars_append, ih (n / 10) (by omega),
        charVal_digitChar (n % 10) (by omega)]
      omega

theorem decString_inj (m n : Nat) (h : decString m = decString n) : m = n := by
  have hd : decChars m = decChars n := by
    have := congrArg String.data h
    simpa [decString] using this
  rw [← decChars_val m, ← decChars_val n, hd]

theorem decChars_head_digit : ∀ n, ∃ c cs, decChars n = c :: cs ∧
    c.isDigit = true := by
  intro n
  induction n using Nat.strong_induction_on with
  | _ n ih =>
    rw [decChars]
    by_cases h : n < 10
    · rw [if_pos h]
      refine ⟨Nat.digitChar n, [], rfl, ?_⟩
      interval_cases n <;> decide
    · rw [if_neg h]
      obtain ⟨c, cs, hc, hd⟩ := ih (n / 10) (by omega)
      exact ⟨c, cs ++ [Nat.digitChar (n % 10)], by rw [hc]; rfl, hd⟩

theorem headIsDigit_decString (n : Nat) : headIsDigit (decString n) = true := by
  obtain ⟨c, cs, hc, hd⟩ := decChars_head_digit n
  unfold headIsDigit decString
  rw [hc]
  exact hd

theorem english_cardinal_big (n : Nat) (h : 1000 ≤ n) :
    english_cardinal n = decString n := by
  show english_cardinalGo 2 n = decString n
  simp only [english_cardinalGo]
  rw [if_neg (by omega), if_neg (by omega), if_neg (by omega),
    if_neg (by omega), if_neg (by omega)]

theorem headIsDigit_append_left (a b : String) (ha : a.data ≠ []) :
    headIsDigit (a ++ b) = headIsDigit a := by
  unfold headIsDigit
  rw [String.data_append]
  cases hd : a.data with
  | nil => exact absurd hd ha
  | cons c cs => rfl

theorem headIsDigit_cardinal_small (n : Nat) (h1 : 1 ≤ n) (h99 : n ≤ 99) :
    headIsDigit (english_cardinal n) = false := by
  interval_cases n <;> decide

theorem enUnits_head (u : Nat) (h1 : 1 ≤ u) (h9 : u ≤ 9) :
    headIsDigit (enUnits.getD u "") = false ∧ (enUnits.getD u "").data ≠ [] := by
  interval_cases u <;> decide

theorem headIsDigit_cardinal (n : Nat) (h1 : 1 ≤ n) (h999 : n ≤ 999) :
    headIsDigit (english_cardinal n) = false := by
  by_cases h99 : n ≤ 99
  · exact headIsDigit_cardinal_small n h1 h99
  · show headIsDigit (english_cardinalGo 2 n) = false
    rw [show english_cardinalGo 2 n =
        (if n % 100 = 0 then enUnits.getD (n / 100) "" ++ " hundred"
         else enUnits.getD (n / 100) "" ++ " hundred " ++
           english_cardinalGo 1 (n % 100)) by
      simp only [english_cardinalGo]
      rw [if_neg (by omega), if_neg (by omega), if_neg (by omega),
        if_neg (by omega), if_pos (by omega)]]
    obtain ⟨hh, hne⟩ := enUnits_head (n / 100) (by omega) (by omega)
    by_cases hrem : n % 100 = 0
    · rw [if_pos hrem, headIsDigit_append_left _ _ hne]
      exact hh
    · rw [if_neg hrem, headIsDigit_append_left _ _ ?_,
        headIsDigit_append_left _ _ hne]
      · exact hh
      · rw [String.data_append]
        intro hcon
        rcases List.append_eq_nil.mp hcon with ⟨hc1, -⟩
        exact hne hc1

theorem english_cardinal_inj (m n : Nat) (hm : 1 ≤ m) (hn : 1 ≤ n)
    (heq : english_cardinal m = english_cardinal n) : m = n := by
  by_cases hm9 : m ≤ 999 <;> by_cases hn9 : n ≤ 999
  · have h1 := english_cardinal_eq_join m hm hm9
    have h2 := english_cardinal_eq_join n hn hn9
    rw [h1, h2] at heq
    have hwords := wordsJoin_inj _ _ (enCardWords_ok m hm hm9)
      (enCardWords_ok n hn hn9) heq
    have hd1 := decodeEn_correct m hm hm9
    have hd2 := decodeEn_correct n hn hn9
    rw [hwords, hd2] at hd1
    exact (Option.some.injEq _ _).mp hd1.symm
  · exfalso
    rw [english_cardinal_big n (by omega)] at heq
    have hf := headIsDigit_cardinal m hm hm9
    rw [heq, headIsDigit_decString n] at hf
    exact Bool.true_eq_false.mp hf
  · exfalso
    rw [english_cardinal_big m (by omega)] at heq
    have hf := headIsDigit_cardinal n hn hn9
    rw [← heq, headIsDigit_decString m] at hf
    exact Bool.true_eq_false.mp hf
  · exact decString_inj m n (by
      rw [← english_cardinal_big m (by omega),
        ← english_cardinal_big n (by omega)]
      exact heq)

theorem head?_append_left (l1 l2 : List Char) (h : l1 ≠ []) :
    (l1 ++ l2).head? = l1.head? := by
  cases l1 with
  | nil => exact absurd rfl h
  | cons c cs => rfl

theorem getLast?_append_right (l1 l2 : List Char) (h : l2 ≠ []) :
    (l1 ++ l2).getLast? = l2.getLast? := by
  rcases List.eq_nil_or_concat l2 with rfl | ⟨m, y, rfl⟩
  · exact absurd rfl h
  · simp only [List.concat_eq_append]
    rw [← List.append_assoc, List.getLast?_concat, List.getLast?_concat]

theorem pyStrip_no_op (s : String)
    (hh : ∀ c ∈ s.data.head?, c.isWhitespace = false)
    (hl : ∀ c ∈ s.data.getLast?, c.isWhitespace = false) :
    pyStrip s = s := by
  unfold pyStrip
  have h1 : s.data.dropWhile Char.isWhitespace = s.data := by
    cases hd : s.data with
    | nil => rfl
    | cons c cs =>
      rw [List.dropWhile_cons]
      have hc : c.isWhitespace = false := hh c (by rw [hd]; rfl)
      simp [hc]
  rw [h1]
  have h2 : s.data.reverse.dropWhile Char.isWhitespace = s.data.reverse := by
    cases hd : s.data.reverse with
    | nil => rfl
    | cons c cs =>
      rw [List.dropWhile_cons]
      have hc : c ∈ s.data.getLast? := by
        rw [← List.head?_reverse, hd]
        rfl
      have hc' : c.isWhitespace = false := hl c hc
      simp [hc']
  rw [h2, List.reverse_reverse]

theorem string_data_ne_nil (s : String) (h : s ≠ "") : s.data ≠ [] := by
  intro hd
  apply h
  cases s with
  | _ d =>
    simp only at hd
    rw [hd]

theorem wordsJoin_data_ne_nil (ws : List String) (hne : ws ≠ [])
    (hok : ∀ w ∈ ws, okWord w) : (wordsJoin ws).data ≠ [] := by
  cases ws with
  | nil => exact absurd rfl hne
  | cons w ws' =>
    cases ws' with
    | nil => exact string_data_ne_nil w (hok w (by simp)).1
    | cons w' ws'' =>
      show (w ++ " " ++ wordsJoin (w' :: ws'')).data ≠ []
      rw [String.data_append, String.data_append]
      simp

theorem wordsJoin_last_not_ws (ws : List String) (hne : ws ≠ [])
    (hok : ∀ w ∈ ws, okWord w) :
    ∀ c ∈ (wordsJoin ws).data.getLast?, c.isWhitespace = false := by
  induction ws with
  | nil => exact absurd rfl hne
  | cons w ws' ih =>
    cases ws' with
    | nil =>
      intro c hc
      exact (hok w (by simp)).2 c (List.mem_of_getLast?_eq_some hc)
    | cons w' ws'' =>
      intro c hc
      have hJ : (wordsJoin (w' :: ws'')).data ≠ [] :=
        wordsJoin_data_ne_nil (w' :: ws'') (by simp)
          (fun z hz => hok z (List.mem_cons_of_mem w hz))
      have hdata : (wordsJoin (w :: w' :: ws'')).data =
          w.data ++ ([' '] ++ (wordsJoin (w' :: ws'')).data) := by
        show (w ++ " " ++ wordsJoin (w' :: ws'')).data = _
        rw [String.data_append, String.data_append, List.append_assoc]
      rw [hdata, getLast?_append_right _ _ (by simp),
        getLast?_append_right _ _ hJ] at hc
      exact ih (by simp) (fun z hz => hok z (List.mem_cons_of_mem w hz)) c hc

theorem russian_cardinalGo_fuel_lt100 (f : Nat) (n : Nat) (h : n < 100) :
    russian_cardinalGo (f + 1) n = russian_cardinalGo 1 n := by
  simp only [russian_cardinalGo]
  by_cases h0 : n = 0
  · simp [h0]
  · simp only [h0, if_false]
    by_cases h10 : n < 10
    · simp [h10]
    · simp only [h10, if_false]
      by_cases h20 : n < 20
      · simp [h20]
      · simp [h20, h]

theorem ruCardWordsGo_fuel_lt100 (f : Nat) (n : Nat) (h : n < 100) :
    ruCardWordsGo (f + 1) n = ruCardWordsGo 1 n := by
  simp only [ruCardWordsGo]
  by_cases h10 : n < 10
  · simp [h10]
  · simp only [h10, if_false]
    by_cases h20 : n < 20
    · simp [h20]
    · simp [h20, h]

theorem ruCardWords_ne_nil (f : Nat) (n : Nat) :
    ruCardWordsGo (f + 1) n ≠ [] := by
  simp only [ruCardWordsGo]
  split
  · simp
  · split
    · simp
    · split
      · split <;> simp
      · split <;> simp

theorem ruHundreds_ok (h : Nat) (h1 : 1 ≤ h) (h9 : h ≤ 9) :
    okWord (ruHundreds.getD h "") := by
  interval_cases h <;> decide

theorem ruCardWords_ok_small (n : Nat) (h1 : 1 ≤ n) (h99 : n ≤ 99) :
    ∀ w ∈ ruCardWords n, okWord w := by
  interval_cases n <;> decide

theorem ruCardWords_ok : ∀ n, 1 ≤ n → n ≤ 999 →
    ∀ w ∈ ruCardWords n, okWord w := by
  intro n
  induction n using Nat.strong_induction_on with
  | _ n ih =>
    intro h1 h999
    by_cases h99 : n ≤ 99
    · exact ruCardWords_ok_small n h1 h99
    · have h100 : 100 ≤ n := by omega
      show ∀ w ∈ ruCardWordsGo 2 n, okWord w
      rw [show ruCardWordsGo 2 n =
          (if n % 100 = 0 then [ruHundreds.getD (n / 100) ""]
           else ruHundreds.getD (n / 100) "" :: ruCardWordsGo 1 (n % 100)) by
        simp only [ruCardWordsGo]
        rw [if_neg (by omega), if_neg (by omega), if_neg (by omega)]]
      have hok := ruHundreds_ok (n / 100) (by omega) (by omega)
      by_cases hrem : n % 100 = 0
      · rw [if_pos hrem]
        intro w hw
        simp only [List.mem_singleton] at hw
        subst hw
        exact hok
      · rw [if_neg hrem]
        intro w hw
        rcases List.mem_cons.mp hw with rfl | hw'
        · exact hok
        · rw [← ruCardWordsGo_fuel_lt100 1 (n % 100) (by omega)] at hw'
          exact ih (n % 100) (by omega) (by omega) (by omega) w hw'

theorem russian_cardinal_eq_join_small (n : Nat) (h1 : 1 ≤ n) (h99 : n ≤ 99) :
    russian_cardinal n = wordsJoin (ruCardWords n) := by
  interval_cases n <;> decide

theorem russian_cardinal_eq_join : ∀ n, 1 ≤ n → n ≤ 999 →
    russian_cardinal n = wordsJoin (ruCardWords n) := by
  intro n
  induction n using Nat.strong_induction_on with
  | _ n ih =>
    intro h1 h999
    by_cases h99 : n ≤ 99
    · exact russian_cardinal_eq_join_small n h1 h99
    · have h100 : 100 ≤ n := by omega
      show russian_cardinalGo 2 n = wordsJoin (ruCardWordsGo 2 n)
      rw [show russian_cardinalGo 2 n =
          (if n % 100 = 0 then ruHundreds.getD (n / 100) ""
           else pyStrip (ruHundreds.getD (n / 100) "" ++ " " ++
             russian_cardinalGo 1 (n % 100))) by
        simp only [russian_cardinalGo]
        rw [if_neg (by omega), if_neg (by omega), if_neg (by omega),
          if_neg (by omega), if_pos (by omega)]]
      rw [show ruCardWordsGo 2 n =
          (if n % 100 = 0 then [ruHundreds.getD (n / 100) ""]
           else ruHundreds.getD (n / 100) "" :: ruCardWordsGo 1 (n % 100)) by
        simp only [ruCardWordsGo]
        rw [if_neg (by omega), if_neg (by omega), if_neg (by omega)]]
      have hokH := ruHundreds_ok (n / 100) (by omega) (by omega)
      by_cases hrem : n % 100 = 0
      · rw [if_pos hrem, if_pos hrem]
        rfl
      · rw [if_neg hrem, if_neg hrem]
        have hwords1 : ruCardWordsGo 1 (n % 100) = ruCardWords (n % 100) :=
          (ruCardWordsGo_fuel_lt100 1 (n % 100) (by omega)).symm
        have hcard : russian_cardinalGo 1 (n % 100) =
            wordsJoin (ruCardWords (n % 100)) := by
          rw [← russian_cardinalGo_fuel_lt100 1 (n % 100) (by omega)]
          exact ih (n % 100) (by omega) (by omega) (by omega)
        have hokR : ∀ w ∈ ruCardWords (n % 100), okWord w :=
          ruCardWords_ok (n % 100) (by omega) (by omega)
        have hRne : ruCardWords (n % 100) ≠ [] := ruCardWords_ne_nil 1 (n % 100)
        rw [hcard, hwords1]
        obtain ⟨w, ws, hw⟩ := List.exists_cons_of_ne_nil hRne
        have hJne : (wordsJoin (ruCardWords (n % 100))).data ≠ [] :=
          wordsJoin_data_ne_nil _ hRne hokR
        have hdata : (ruHundreds.getD (n / 100) "" ++ " " ++
            wordsJoin (ruCardWords (n % 100))).data =
            (ruHundreds.getD (n / 100) "").data ++
              ([' '] ++ (wordsJoin (ruCardWords (n % 100))).data) := by
          rw [String.data_append, String.data_append, List.append_assoc]
        have hstrip : pyStrip (ruHundreds.getD (n / 100) "" ++ " " ++
            wordsJoin (ruCardWords (n % 100))) =
            ruHundreds.getD (n / 100) "" ++ " " ++
              wordsJoin (ruCardWords (n % 100)) := by
          apply pyStrip_no_op
          · intro c hc
            rw [hdata, head?_append_left _ _
              (string_data_ne_nil _ hokH.1)] at hc
            exact hokH.2 c (List.mem_of_mem_head? hc)
          · intro c hc
            rw [hdata, getLast?_append_right _ _ (by simp),
              getLast?_append_right _ _ hJne] at hc
            exact wordsJoin_last_not_ws _ hRne hokR c hc
        rw [hstrip, hw]
        rfl

theorem tblIdx_ruHundreds (h : Nat) (h1 : 1 ≤ h) (h9 : h ≤ 9) :
    tblIdx ruHundreds (ruHundreds.getD h "") = some h := by
  interval_cases h <;> decide

theorem oneWordRu_hundreds (h : Nat) (h1 : 1 ≤ h) (h9 : h ≤ 9) :
    oneWordRu (ruHundreds.getD h "") = some (h * 100) := by
  interval_cases h <;> decide

theorem tblIdx_ruTens_hundreds (h : Nat) (h1 : 1 ≤ h) (h9 : h ≤ 9) :
    tblIdx ruTens (ruHundreds.getD h "") = none := by
  interval_cases h <;> decide

theorem decodeRu_correct_small (n : Nat) (h1 : 1 ≤ n) (h99 : n ≤ 99) :
    decodeRuWords (ruCardWords n) = some n := by
  interval_cases n <;> decide

theorem decodeRu_correct : ∀ n, 1 ≤ n → n ≤ 999 →
    decodeRuWords (ruCardWords n) = some n := by
  intro n
  induction n using Nat.strong_induction_on with
  | _ n ih =>
    intro h1 h999
    by_cases h99 : n ≤ 99
    · exact decodeRu_correct_small n h1 h99
    · have h100 : 100 ≤ n := by omega
      show decodeRuWords (ruCardWordsGo 2 n) = some n
      rw [show ruCardWordsGo 2 n =
          (if n % 100 = 0 then [ruHundreds.getD (n / 100) ""]
           else ruHundreds.getD (n / 100) "" :: ruCardWordsGo 1 (n % 100)) by
        simp only [ruCardWordsGo]
        rw [if_neg (by omega), if_neg (by omega), if_neg (by omega)]]
      by_cases hrem : n % 100 = 0
      · rw [if_pos hrem]
        show oneWordRu (ruHundreds.getD (n / 100) "") = some n
        rw [oneWordRu_hundreds (n / 100) (by omega) (by omega)]
        simp only [Option.some.injEq]
        omega
      · rw [if_neg hrem]
        have hwords1 : ruCardWordsGo 1 (n % 100) = ruCardWords (n % 100) :=
          (ruCardWordsGo_fuel_lt100 1 (n % 100) (by omega)).symm
        rw [hwords1]
        obtain ⟨w, ws, hw⟩ := List.exists_cons_of_ne_nil
          (show ruCardWords (n % 100) ≠ [] from ruCardWords_ne_nil 1 (n % 100))
        have hrec : decodeRuWords (ruCardWords (n % 100)) = some (n % 100) :=
          ih (n % 100) (by omega) (by omega) (by omega)
        rw [hw]
        rw [hw] at hrec
        rw [decodeRuWords, tblIdx_ruHundreds (n / 100) (by omega) (by omega),
          hrec]
        · show some (100 * (n / 100) + n % 100) = some n
          simp only [Option.some.injEq]
          omega
        · intro t u hws ht hu
          rw [tblIdx_ruTens_hundreds (n / 100) (by omega) (by omega)] at ht
          exact Option.noConfusion ht

theorem russian_cardinal_big (n : Nat) (h : 1000 ≤ n) :
    russian_cardinal n = decString n := by
  show russian_cardinalGo 2 n = decString n
  simp only [russian_cardinalGo]
  rw [if_neg (by omega), if_neg (by omega), if_neg (by omega),
    if_neg (by omega), if_neg (by omega)]

theorem headIsDigit_ru_small (n : Nat) (h1 : 1 ≤ n) (h99 : n ≤ 99) :
    headIsDigit (russian_cardinal n) = false := by
  interval_cases n <;> decide

theorem ruHundreds_head (h : Nat) (h1 : 1 ≤ h) (h9 : h ≤ 9) :
    headIsDigit (ruHundreds.getD h "") = false ∧
      (ruHundreds.getD h "").data ≠ [] := by
  interval_cases h <;> decide

theorem headIsDigit_ru (n : Nat) (h1 : 1 ≤ n) (h999 : n ≤ 999) :
    headIsDigit (russian_cardinal n) = false := by
  by_cases h99 : n ≤ 99
  · exact headIsDigit_ru_small n h1 h99
  · have h100 : 100 ≤ n := by omega
    show headIsDigit (russian_cardinalGo 2 n) = false
    rw [show russian_cardinalGo 2 n =
        (if n % 100 = 0 then ruHundreds.getD (n / 100) ""
         else pyStrip (ruHundreds.getD (n / 100) "" ++ " " ++
           russian_cardinalGo 1 (n % 100))) by
      simp only [russian_cardinalGo]
      rw [if_neg (by omega), if_neg (by omega), if_neg (by omega),
        if_neg (by omega), if_pos (by omega)]]
    obtain ⟨hh, hne⟩ := ruHundreds_head (n / 100) (by omega) (by omega)
    by_cases hrem : n % 100 = 0
    · rw [if_pos hrem]
      exact hh
    · rw [if_neg hrem]
      have hokH := ruHundreds_ok (n / 100) (by omega) (by omega)
      have hokR : ∀ w ∈ ruCardWords (n % 100), okWord w :=
        ruCardWords_ok (n % 100) (by omega) (by omega)
      have hRne : ruCardWords (n % 100) ≠ [] := ruCardWords_ne_nil 1 (n % 100)
      have hcard : russian_cardinalGo 1 (n % 100) =
          wordsJoin (ruCardWords (n % 100)) := by
        rw [← russian_cardinalGo_fuel_lt100 1 (n % 100) (by omega)]
        exact russian_cardinal_eq_join (n % 100) (by omega) (by omega)
      rw [hcard]
      have hJne : (wordsJoin (ruCardWords (n % 100))).data ≠ [] :=
        wordsJoin_data_ne_nil _ hRne hokR
      have hdata : (ruHundreds.getD (n / 100) "" ++ " " ++
          wordsJoin (ruCardWords (n % 100))).data =
          (ruHundreds.getD (n / 100) "").data ++
            ([' '] ++ (wordsJoin (ruCardWords (n % 100))).data) := by
        rw [String.data_append, String.data_append, List.append_assoc]
      rw [pyStrip_no_op _ ?_ ?_]
      · rw [headIsDigit_append_left _ _ ?_]
        · rw [headIsDigit_append_left _ _ hne]
          exact hh
        · rw [String.data_append]
          intro hcon
          rcases List.append_eq_nil.mp hcon with ⟨hc1, -⟩
          exact hne hc1
      · intro c hc
        rw [hdata, head?_append_left _ _ hne] at hc
        exact hokH.2 c (List.mem_of_mem_head? hc)
      · intro c hc
        rw [hdata, getLast?_append_right _ _ (by simp),
          getLast?_append_right _ _ hJne] at hc
        exact wordsJoin_last_not_ws _ hRne hokR c hc

theorem russian_cardinal_inj (m n : Nat) (hm : 1 ≤ m) (hn : 1 ≤ n)
    (heq : russian_cardinal m = russian_cardinal n) : m = n := by
  by_cases hm9 : m ≤ 999 <;> by_cases hn9 : n ≤ 999
  · have h1 := russian_cardinal_eq_join m hm hm9
    have h2 := russian_cardinal_eq_join n hn hn9
    rw [h1, h2] at heq
    have hwords := wordsJoin_inj _ _ (ruCardWords_ok m hm hm9)
      (ruCardWords_ok n hn hn9) heq
    have hd1 := decodeRu_correct m hm hm9
    have hd2 := decodeRu_correct n hn hn9
    rw [hwords, hd2] at hd1
    exact (Option.some.injEq _ _).mp hd1.symm
  · exfalso
    rw [russian_cardinal_big n (by omega)] at heq
    have hf := headIsDigit_ru m hm hm9
    rw [heq, headIsDigit_decString n] at hf
    exact Bool.true_eq_false.mp hf
  · exfalso
    rw [russian_cardinal_big m (by omega)] at heq
    have hf := headIsDigit_ru n hn hn9
    rw [← heq, headIsDigit_decString m] at hf
    exact Bool.true_eq_false.mp hf
  · exact decString_inj m n (by
      rw [← russian_cardinal_big m (by omega),
        ← russian_cardinal_big n (by omega)]
      exact heq)

theorem dictGet_append_single (d : List (String × Nat)) (k : String) (v : Nat)
    (key : String) :
    dictGet (d ++ [(k, v)]) key =
      if k = key then some v else dictGet d key := by
  unfold dictGet
  rw [List.foldl_append]
  rfl

theorem langCardinal_inj (lang : Lang) (m n : Nat) (hm : 1 ≤ m) (hn : 1 ≤ n)
    (heq : langCardinal lang m = langCardinal lang n) : m = n := by
  cases lang with
  | en => exact english_cardinal_inj m n hm hn heq
  | ru => exact russian_cardinal_inj m n hm hn heq

theorem phraseMapLoop_dict_step (card : Nat → String)
    (ordB : Nat → Option String) (trig : String) (m : Nat) :
    (phraseMapLoop card ordB trig false (m + 1)).2 =
      (phraseMapLoop card ordB trig false m).2 ++ [(card (m + 1), m + 1)] := by
  rw [phraseMapLoop]
  rfl

/-- C9: for each supported language and every `n` in `[1, max_number]`, the
phrase grammar's reverse mapping sends the generated cardinal word back to
`n`: `spoken_to_int[cardinal(n)] = n` (for `n ≥ 1000` the cardinal degrades
to the decimal digit string of `n`).  Stated for the cardinal-only grammar
(`include_ordinals = false`; the ordinal insertions use separate word forms,
and for `max_number ≥ 200` with ordinals the Python build does not even
terminate — see C3). -/
theorem C9_cardinal_roundtrip (lang : Lang) (trig : String) (mx n : Nat)
    (h1 : 1 ≤ n) (hn : n ≤ mx) :
    dictGet (build_phrase_map lang trig mx false).2 (langCardinal lang n) =
      some n := by
  have hd : (build_phrase_map lang trig mx false).2 =
      (phraseMapLoop (langCardinal lang)
        (match lang with
          | .ru => russian_ordinal_basic
          | .en => enOrd) trig false mx).2 := by
    cases lang <;> rfl
  rw [hd]
  clear hd
  induction mx with
  | zero => omega
  | succ m ih =>
    rw [phraseMapLoop_dict_step, dictGet_append_single]
    by_cases hcase : n = m + 1
    · subst hcase
      rw [if_pos rfl]
    · rw [if_neg ?_]
      · exact ih (by omega)
      · intro hceq
        exact hcase (langCardinal_inj lang (m + 1) n (by omega) h1 hceq).symm

/-- Witness for C9: English, trigger "chapter", `max_number = 5`, `n = 3`. -/
theorem C9_witness :
    1 ≤ 3 ∧ 3 ≤ 5 ∧
      dictGet (build_phrase_map Lang.en "chapter" 5 false).2
        (langCardinal Lang.en 3) = some 3 :=
  ⟨by decide, by decide,
    C9_cardinal_roundtrip Lang.en "chapter" 5 3 (by decide) (by decide)⟩
